import Mathlib

/-!
Verification of the `nl_opt` netlist-optimization binary (`src/bin/nl_opt.rs`).

The binary defines a set of netlist passes (`Clean`, `DisconnectRegisters`,
`DisconnectArcSet`, `MarkArcSet`, `RenameNets`, `ReportSccs`, `ReportDepth`),
a Xilinx port-naming override, and a pipeline loop in `main` that runs the
requested passes in order, verifying after the last pass (and optionally
after every pass).

The netlist library itself (`safety_net`: `Netlist`, `MultiDiGraph`,
`SimpleCombDepth`, `clean`, `disconnect`, `rename_nets`, ...) is not part of
the repository's sources, so those operations are modelled from the design
specification; each such definition carries a `Modelled from the spec:` doc
comment.  The pass bodies and the `main` pipeline are translated directly
from `nl_opt.rs`.
-/

namespace NlOpt


/-- Modelled from the spec (`safety_net::Identifier` is not in the sources):
an identifier is a name; equality and ordering are by the full composed
string, and prefixing is a pure string operation, not a separate field. -/
structure Identifier where
  chars : List Char
deriving DecidableEq, Repr

/-- Modelled from the spec: the identifier's name, the full composed string. -/
def Identifier.get_name (i : Identifier) : List Char := i.chars

/-- Modelled from the spec: prefixing an identifier is pure string
concatenation (Rust `Identifier + Identifier`). -/
def Identifier.add (a b : Identifier) : Identifier := ⟨a.chars ++ b.chars⟩

/-- Modelled from the spec (`safety_net` instance objects are not in the
sources): a primitive cell instance with a name, a sequential/combinational
classification, and input ports each holding at most one reference to the
net driving it (`none` when disconnected). -/
structure Inst where
  name : Identifier
  seq : Bool
  inputs : List (Option Nat)
deriving DecidableEq, Repr

/-- Classification predicate of an instance (sequential vs combinational). -/
def Inst.is_seq (i : Inst) : Bool := i.seq

/-- Modelled from the spec: a net is a named wire with exactly one driving
output (or none, if disconnected); `driver` is the key of the driving
instance. -/

structure Net where
  name : Identifier
  driver : Option Nat
deriving DecidableEq, Repr

/-- Modelled from the spec (`safety_net::Netlist` is not in the sources):
the netlist owns the collections of instances and nets; cross-references
are lightweight keys into those collections (arena-and-index
representation), and `outs` lists the keys of the observable output nets. -/
structure Netlist where
  insts : List (Nat × Inst)
  nets : List (Nat × Net)
  outs : List Nat
deriving DecidableEq, Repr

/-- First-match lookup in an arena (keyed association list). -/
def alookup {α : Type} : List (Nat × α) → Nat → Option α
  | [], _ => none
  | (k, x) :: rest, t => if k = t then some x else alookup rest t

/-- Update the (first) arena entry with the given key in place. -/
def updateFirst {α : Type} (f : α → α) (t : Nat) : List (Nat × α) → List (Nat × α)
  | [] => []
  | (k, x) :: rest => if k = t then (k, f x) :: rest else (k, x) :: updateFirst f t rest

/-- Modelled from the spec: `len()` — the count of live objects. -/
def Netlist.len (nl : Netlist) : Nat := nl.insts.length + nl.nets.length

/-- The (deduplicated) keys of the instances, in insertion order. -/
def Netlist.instKeysList (nl : Netlist) : List Nat := (nl.insts.map Prod.fst).dedup

def Netlist.lookupInst (nl : Netlist) (t : Nat) : Option Inst := alookup nl.insts t

def Netlist.lookupNet (nl : Netlist) (k : Nat) : Option Net := alookup nl.nets k

/-- The key of the instance driving net `nid`, if any. -/
def Netlist.netDriver (nl : Netlist) (nid : Nat) : Option Nat :=
  (nl.lookupNet nid).bind Net.driver

/-- The net currently driving input port `p` of instance `t` (`none` when
the instance or port is absent or the port is disconnected). -/
def Netlist.inputDriver (nl : Netlist) (t p : Nat) : Option Nat :=
  (nl.lookupInst t).bind fun i => (i.inputs.get? p).bind id

/-- Clear input port `p` of instance `t`. -/
def Netlist.disconnectPort (nl : Netlist) (t p : Nat) : Netlist :=
  { nl with insts := updateFirst (fun i => { i with inputs := i.inputs.set p none }) t nl.insts }

/-- Modelled from the spec: `disconnect(input_port)` clears the input
port's driver reference and returns the net that was disconnected, or
nothing if it was already disconnected. -/
def Netlist.disconnect (nl : Netlist) (t p : Nat) : Option Nat × Netlist :=
  (nl.inputDriver t p, nl.disconnectPort t p)

/-- Rename a single instance (Rust `set_instance_name`). -/
def Netlist.set_instance_name (nl : Netlist) (t : Nat) (idn : Identifier) : Netlist :=
  { nl with insts := updateFirst (fun i => { i with name := idn }) t nl.insts }

/-- The current name of instance `t` (Rust `get_instance_name`). -/
def Netlist.get_instance_name (nl : Netlist) (t : Nat) : Option Identifier :=
  (nl.lookupInst t).map Inst.name

/-- One output-to-input connection of the netlist graph: source instance
key, target instance key, and the target's input-port index. -/
structure Arc where
  src : Nat
  tgt : Nat
  tport : Nat
deriving DecidableEq, Repr

/-- Modelled from the spec: the directed multigraph view — one node per
instance, one edge per output-to-input connection, parallel edges kept
distinct. -/

structure MultiDiGraph where
  nodes : List Nat
  arcs : List Arc
deriving DecidableEq, Repr

/-- The arcs entering instance `t` through its input ports, beginning at
port index `p`. -/
def arcsFromPorts (nl : Netlist) (t : Nat) : Nat → List (Option Nat) → List Arc
  | _, [] => []
  | p, none :: rest => arcsFromPorts nl t (p + 1) rest
  | p, some nid :: rest =>
    (match nl.netDriver nid with
     | some s => [⟨s, t, p⟩]
     | none => []) ++ arcsFromPorts nl t (p + 1) rest

/-- The arcs entering the instances with the given keys. -/
def arcsFromKeys (nl : Netlist) : List Nat → List Arc
  | [] => []
  | t :: rest =>
    (match nl.lookupInst t with
     | some inst => arcsFromPorts nl t 0 inst.inputs
     | none => []) ++ arcsFromKeys nl rest

/-- Modelled from the spec: build the `MultiDiGraph` view of the netlist's
current connectivity. -/
def Netlist.toGraph (nl : Netlist) : MultiDiGraph :=
  { nodes := nl.instKeysList, arcs := arcsFromKeys nl nl.instKeysList }

/-- One breadth step of forward reachability: add the targets of all arcs
whose source is already reached. -/
def reachStep (g : MultiDiGraph) (s : List Nat) : List Nat :=
  s ++ g.arcs.filterMap fun a => if a.src ∈ s then some a.tgt else none

/-- Iterate `reachStep` a bounded number of times. -/
def reachIter (g : MultiDiGraph) : Nat → List Nat → List Nat
  | 0, s => s
  | k + 1, s => reachIter g k (reachStep g s)

/-- Modelled from the spec: `v` is reachable from `u` by directed arcs; a
path between nodes never needs more steps than there are nodes, so the
breadth iteration is run once per node. -/
def Reaches (g : MultiDiGraph) (u v : Nat) : Prop :=
  v ∈ reachIter g g.nodes.length [u]

instance (g : MultiDiGraph) (u v : Nat) : Decidable (Reaches g u v) := by
  unfold Reaches; infer_instance

/-- Modelled from the spec: the strongly connected component of `v` — all
nodes mutually reachable with `v`. -/
def MultiDiGraph.sccOf (g : MultiDiGraph) (v : Nat) : List Nat :=
  g.nodes.filter fun u => decide (Reaches g v u ∧ Reaches g u v)

/-- Modelled from the spec: `sccs()` partitions all nodes into maximal sets
where every node is reachable from every other node of the set; every node
appears in exactly one component. -/
def MultiDiGraph.sccs (g : MultiDiGraph) : List (List Nat) :=
  (g.nodes.map g.sccOf).dedup

/-- Out-degree of a node in the multigraph. -/
def MultiDiGraph.outDeg (g : MultiDiGraph) (v : Nat) : Nat :=
  (g.arcs.filter fun a => decide (a.src = v)).length

/-- In-degree of a node in the multigraph. -/
def MultiDiGraph.inDeg (g : MultiDiGraph) (v : Nat) : Nat :=
  (g.arcs.filter fun a => decide (a.tgt = v)).length

/-- Greedy node score: out-degree minus in-degree. -/
def MultiDiGraph.score (g : MultiDiGraph) (v : Nat) : Int :=
  (g.outDeg v : Int) - (g.inDeg v : Int)

/-- `u` is ordered before `v`: by descending score, ties broken by the
stable key order. -/
def nodeBefore (g : MultiDiGraph) (u v : Nat) : Bool :=
  decide (g.score v < g.score u ∨ (g.score u = g.score v ∧ u ≤ v))

/-- Insertion step of the deterministic node ordering. -/
def insertByScore (g : MultiDiGraph) (u : Nat) : List Nat → List Nat
  | [] => [u]
  | v :: rest => if nodeBefore g u v then u :: v :: rest else v :: insertByScore g u rest

/-- Deterministic insertion sort of the nodes by `nodeBefore`. -/
def sortNodes (g : MultiDiGraph) : List Nat → List Nat
  | [] => []
  | v :: rest => insertByScore g v (sortNodes g rest)

/-- Position of a node in the deterministic ordering. -/
def MultiDiGraph.rank (g : MultiDiGraph) (v : Nat) : Nat :=
  (sortNodes g g.nodes).indexOf v

/-- Modelled from the spec: `greedy_feedback_arcs()` — order the nodes by a
deterministic greedy score (out-degree minus in-degree, ties by key) and
report every arc that points backward (or onto itself) relative to that
order; removing these leaves only forward arcs, hence an acyclic graph.
Only the acyclicity postcondition is load-bearing per the spec. -/
def MultiDiGraph.greedy_feedback_arcs (g : MultiDiGraph) : List Arc :=
  g.arcs.filter fun a => decide (g.rank a.tgt ≤ g.rank a.src)

/-- Is the instance with key `k` sequential? -/
def Netlist.isSeqKey (nl : Netlist) (k : Nat) : Bool :=
  match nl.lookupInst k with
  | some i => i.seq
  | none => false

/-- Arcs of the combinational-only subgraph (both endpoints
combinational). -/
def Netlist.combArcs (nl : Netlist) : List Arc :=
  nl.toGraph.arcs.filter fun a => !nl.isSeqKey a.src && !nl.isSeqKey a.tgt

/-- The combinational-only subgraph. -/
def Netlist.combGraph (nl : Netlist) : MultiDiGraph :=
  { nodes := nl.instKeysList.filter fun k => !nl.isSeqKey k, arcs := nl.combArcs }

/-- Modelled from the spec: a combinational cycle is detected via the SCC
result — any component of size ≥ 2 in the combinational-only subgraph, or a
combinational self-loop. -/
def Netlist.hasCombCycle (nl : Netlist) : Bool :=
  (nl.combGraph.sccs.any fun c => decide (1 < c.length)) ||
    nl.combArcs.any fun a => decide (a.src = a.tgt)

/-- Combinational successors of a node. -/
def combSucc (nl : Netlist) (v : Nat) : List Nat :=
  nl.combArcs.filterMap fun a => if a.src = v then some a.tgt else none

/-- Length (in combinational instances) of the longest combinational chain
starting at `v`, bounded by the fuel. -/
def combDepthFrom (nl : Netlist) : Nat → Nat → Nat
  | 0, _ => 1
  | fuel + 1, v => (combSucc nl v).foldl (fun acc w => max acc (1 + combDepthFrom nl fuel w)) 1

/-- The longest combinational chain in the netlist (meaningful when the
combinational-only subgraph is acyclic). -/
def Netlist.maxCombDepth (nl : Netlist) : Nat :=
  (nl.combGraph.nodes.map (combDepthFrom nl nl.combGraph.nodes.length)).foldl max 0

/-- Modelled from the spec: the `SimpleCombDepth` analysis — no value when
the combinational-only subgraph contains a cycle (no finite longest path
exists), otherwise the maximum combinational depth. -/
def SimpleCombDepth.get_max_depth (nl : Netlist) : Option Nat :=
  if nl.hasCombCycle then none else some nl.maxCombDepth

/-- The set of instance keys. -/
def Netlist.instKeys (nl : Netlist) : Finset Nat := (nl.insts.map Prod.fst).toFinset

/-- The set of net keys. -/
def Netlist.netKeys (nl : Netlist) : Finset Nat := (nl.nets.map Prod.fst).toFinset

/-- One step of the liveness closure used by `clean`: the driver of a live
net becomes live, and a net becomes live if it is an observable output or
is referenced by an input of a live instance. -/
def liveStep (nl : Netlist) (S : Finset Nat × Finset Nat) : Finset Nat × Finset Nat :=
  (S.1 ∪ nl.instKeys.filter (fun k => ∃ q ∈ nl.nets, q.1 ∈ S.2 ∧ q.2.driver = some k),
   S.2 ∪ nl.netKeys.filter
     (fun nid => nid ∈ nl.outs ∨ ∃ p ∈ nl.insts, p.1 ∈ S.1 ∧ some nid ∈ p.2.inputs))

/-- Remaining growth budget of the liveness iteration. -/
def liveGas (nl : Netlist) (S : Finset Nat × Finset Nat) : Nat :=
  (nl.instKeys.card + nl.netKeys.card) - (S.1.card + S.2.card)

/-- Iterate `liveStep` to its least fixed point above `S`.  The recursion
terminates because a non-stable step strictly grows one of the two sets,
which are bounded by the key universes. -/
def closeLive (nl : Netlist) (S : Finset Nat × Finset Nat)
    (h1 : S.1 ⊆ nl.instKeys) (h2 : S.2 ⊆ nl.netKeys) : Finset Nat × Finset Nat :=
  if hs : (liveStep nl S).1 ⊆ S.1 ∧ (liveStep nl S).2 ⊆ S.2 then S
  else
    closeLive nl (liveStep nl S)
      (Finset.union_subset h1 (Finset.filter_subset _ _))
      (Finset.union_subset h2 (Finset.filter_subset _ _))
termination_by liveGas nl S
decreasing_by
  have hc1 : S.1.card ≤ (liveStep nl S).1.card :=
    Finset.card_le_card Finset.subset_union_left
  have hc2 : S.2.card ≤ (liveStep nl S).2.card :=
    Finset.card_le_card Finset.subset_union_left
  have hk1 : (liveStep nl S).1.card ≤ nl.instKeys.card :=
    Finset.card_le_card (Finset.union_subset h1 (Finset.filter_subset _ _))
  have hk2 : (liveStep nl S).2.card ≤ nl.netKeys.card :=
    Finset.card_le_card (Finset.union_subset h2 (Finset.filter_subset _ _))
  have hlt : S.1.card + S.2.card < (liveStep nl S).1.card + (liveStep nl S).2.card := by
    rcases not_and_or.mp hs with h | h
    · have hss : S.1 ⊂ (liveStep nl S).1 :=
        Finset.ssubset_def.mpr ⟨Finset.subset_union_left, h⟩
      have := Finset.card_lt_card hss
      omega
    · have hss : S.2 ⊂ (liveStep nl S).2 :=
        Finset.ssubset_def.mpr ⟨Finset.subset_union_left, h⟩
      have := Finset.card_lt_card hss
      omega
  unfold liveGas
  omega

/-- The sets of live instance keys and live net keys of the netlist. -/
def Netlist.cleanLiveSets (nl : Netlist) : Finset Nat × Finset Nat :=
  closeLive nl (∅, ∅) (Finset.empty_subset _) (Finset.empty_subset _)

/-- Modelled from the spec: `clean()` removes the instances and nets that
are not needed for any observable output (dead-code elimination; a net with
no driver and no consumers is never needed unless it is itself observable)
and returns exactly the removed objects together with the pruned
netlist. -/
def Netlist.clean (nl : Netlist) : (List (Nat × Inst) × List (Nat × Net)) × Netlist :=
  ((nl.insts.filter fun p => decide (p.1 ∉ nl.cleanLiveSets.1),
    nl.nets.filter fun q => decide (q.1 ∉ nl.cleanLiveSets.2)),
   { insts := nl.insts.filter fun p => decide (p.1 ∈ nl.cleanLiveSets.1),
     nets := nl.nets.filter fun q => decide (q.1 ∈ nl.cleanLiveSets.2),
     outs := nl.outs })

/-- Modelled from the spec: an object is live when it is needed for an
observable output — observable output nets are live, the driver of a live
net is live, and every net referenced by an input of a live instance is
live.  `clean` keeps exactly the live objects. -/
inductive Live (nl : Netlist) : Sum Nat Nat → Prop where
  | out (nid : Nat) : nid ∈ nl.netKeys → nid ∈ nl.outs → Live nl (.inr nid)
  | driver (nid k : Nat) (net : Net) : Live nl (.inr nid) → (nid, net) ∈ nl.nets →
      net.driver = some k → k ∈ nl.instKeys → Live nl (.inl k)
  | input (k nid : Nat) (inst : Inst) : Live nl (.inl k) → (k, inst) ∈ nl.insts →
      some nid ∈ inst.inputs → nid ∈ nl.netKeys → Live nl (.inr nid)

/-- Decimal digit characters of a natural number, most significant first. -/
def natChars (n : Nat) : List Char :=
  if n = 0 then ['0'] else (Nat.digits 10 n).reverse.map Nat.digitChar

/-- Model of `format_id!("__{i}__")`: the identifier `__i__` with `i`
rendered in decimal. -/
def format_id (i : Nat) : Identifier := ⟨'_' :: '_' :: (natChars i ++ ['_', '_'])⟩

/-- Rename the instances in order, feeding the namer the running ordinal. -/
def renameInsts (namer : Identifier → Nat → Identifier) :
    Nat → List (Nat × Inst) → List (Nat × Inst)
  | _, [] => []
  | ix, (k, inst) :: rest =>
    (k, { inst with name := namer inst.name ix }) :: renameInsts namer (ix + 1) rest

/-- Rename the nets in order, feeding the namer the running ordinal. -/
def renameNetObjs (namer : Identifier → Nat → Identifier) :
    Nat → List (Nat × Net) → List (Nat × Net)
  | _, [] => []
  | ix, (k, net) :: rest =>
    (k, { net with name := namer net.name ix }) :: renameNetObjs namer (ix + 1) rest

/-- All object names of the netlist (instances first, then nets). -/
def Netlist.allNames (nl : Netlist) : List Identifier :=
  nl.insts.map (fun p => p.2.name) ++ nl.nets.map (fun q => q.2.name)

/-- Error type of a pass (`eqmap::pass::Error`): an I/O error or any other
failure. -/
inductive PassError where
  | ioError (msg : String)
  | other (msg : String)
deriving DecidableEq, Repr

/-- The netlist with every object renamed by the namer: instances get the
ordinals `0 .. |insts| - 1`, nets continue with `|insts| ..`. -/
def renameAll (nl : Netlist) (namer : Identifier → Nat → Identifier) : Netlist :=
  { nl with insts := renameInsts namer 0 nl.insts,
            nets := renameNetObjs namer nl.insts.length nl.nets }

/-- Modelled from the spec: `rename_nets(namer)` renames every object
deterministically with a stable ordinal index and fails with a
naming-collision error if two objects would receive the same name. -/
def Netlist.rename_nets (nl : Netlist) (namer : Identifier → Nat → Identifier) :
    Except PassError Netlist :=
  if (renameAll nl namer).allNames.Nodup then .ok (renameAll nl namer)
  else .error (.other "naming collision")

/-- Modelled from the spec (`eqmap::netlist::PrimitiveCell` is not in the
sources): a primitive cell with named input and output ports and a
sequential/combinational classification; connectivity lives in the
netlist, not in the cell. -/
structure PrimitiveCell where
  inputPorts : List Identifier
  outputPorts : List Identifier
  seq : Bool
deriving DecidableEq, Repr

/-- Modelled from the spec: `remap_input(index, new_name)` renames an input
port's external identifier without changing connectivity. -/
def PrimitiveCell.remap_input (c : PrimitiveCell) (ix : Nat) (idn : Identifier) :
    PrimitiveCell :=
  { c with inputPorts := c.inputPorts.set ix idn }

/-- Modelled from the spec: `remap_output(index, new_name)` renames an
output port's external identifier without changing connectivity. -/
def PrimitiveCell.remap_output (c : PrimitiveCell) (ix : Nat) (idn : Identifier) :
    PrimitiveCell :=
  { c with outputPorts := c.outputPorts.set ix idn }

/-- From `nl_opt.rs`: when Xilinx-specific port naming is enabled, a cell
named `INV` gets its input port 0 remapped to `I` and its output port 0
remapped to `O`; every other cell gets no override. -/
def xilinx_overrides (id : Identifier) (cell : PrimitiveCell) : Option PrimitiveCell :=
  if id.get_name = ['I', 'N', 'V'] then
    some ((cell.remap_input 0 ⟨['I']⟩).remap_output 0 ⟨['O']⟩)
  else
    none

/-- From `nl_opt.rs`: the `Clean` pass — run `clean()` and report
`Cleaned N objects. M remain.`. -/
def Clean.run (nl : Netlist) : Except PassError (String × Netlist) :=
  let cleaned := nl.clean
  .ok ("Cleaned " ++ Nat.repr (cleaned.1.1.length + cleaned.1.2.length) ++ " objects. " ++
        Nat.repr cleaned.2.len ++ " remain.", cleaned.2)

/-- Per-port disconnect of a register's inputs: every port is cleared, and
the instance counts as disconnected when some port returned a removed
net. -/
def discRegInst (inst : Inst) : Bool × Inst :=
  (inst.inputs.any Option.isSome, { inst with inputs := inst.inputs.map fun _ => none })

/-- Walk the instances in order, disconnecting the inputs of each
sequential instance and counting the instances where a net was removed. -/
def discRegsGo : List (Nat × Inst) → Nat × List (Nat × Inst)
  | [] => (0, [])
  | (k, inst) :: rest =>
    let r := discRegsGo rest
    if inst.is_seq then
      ((if (discRegInst inst).1 then 1 else 0) + r.1, (k, (discRegInst inst).2) :: r.2)
    else
      (r.1, (k, inst) :: r.2)

/-- From `nl_opt.rs`: the `DisconnectRegisters` pass — disconnect every
input of every sequential instance and report `Disconnected N registers`,
counting an instance only when some disconnect returned a removed net. -/
def DisconnectRegisters.run (nl : Netlist) : Except PassError (String × Netlist) :=
  let r := discRegsGo nl.insts
  .ok ("Disconnected " ++ Nat.repr r.1 ++ " registers", { nl with insts := r.2 })

/-- Disconnect the target input port of each arc in turn. -/
def disconnectArcsGo : Netlist → List Arc → Netlist
  | nl, [] => nl
  | nl, a :: rest => disconnectArcsGo (nl.disconnectPort a.tgt a.tport) rest

/-- From `nl_opt.rs`: the `DisconnectArcSet` pass — disconnect the target
of every arc of the greedy feedback arc set and report
`Disconnected N arcs`. -/
def DisconnectArcSet.run (nl : Netlist) : Except PassError (String × Netlist) :=
  let fb := nl.toGraph.greedy_feedback_arcs
  .ok ("Disconnected " ++ Nat.repr fb.length ++ " arcs", disconnectArcsGo nl fb)

/-- The `arc_` marker prepended by `MarkArcSet`. -/
def arcTag : Identifier := ⟨['a', 'r', 'c', '_']⟩

/-- For each arc, read the source instance's current name and set it to the
name with `arc_` prepended. -/
def markArcsGo : Netlist → List Arc → Netlist
  | nl, [] => nl
  | nl, a :: rest =>
    markArcsGo
      (nl.set_instance_name a.src (arcTag.add ((nl.get_instance_name a.src).getD ⟨[]⟩))) rest

/-- From `nl_opt.rs`: the `MarkArcSet` pass — prepend `arc_` to the source
instance's name once per feedback arc and report `Marked N arcs`. -/

def MarkArcSet.run (nl : Netlist) : Except PassError (String × Netlist) :=
  let fb := nl.toGraph.greedy_feedback_arcs
  .ok ("Marked " ++ Nat.repr fb.length ++ " arcs", markArcsGo nl fb)

/-- From `nl_opt.rs`: the `RenameNets` pass — rename every object to
`__i__` and report `Renamed N cells` with `N` the live-object count. -/
def RenameNets.run (nl : Netlist) : Except PassError (String × Netlist) :=
  match nl.rename_nets fun _ i => format_id i with
  | .error e => .error e
  | .ok nl' => .ok ("Renamed " ++ Nat.repr nl'.len ++ " cells", nl')

/-- From `nl_opt.rs`: the `ReportSccs` pass — count the non-trivial
(size > 1) and total strongly connected components.  The report string
reproduces the source's spelling `conncected`. -/
def ReportSccs.run (nl : Netlist) : Except PassError (String × Netlist) :=
  let sccs := nl.toGraph.sccs
  let nt := (sccs.filter fun c => decide (1 < c.length)).length
  .ok ("Netlist contains " ++ Nat.repr nt ++ " non-trivial strongly conncected components (" ++
        Nat.repr sccs.length ++ " total)", nl)

/-- From `nl_opt.rs`: the `ReportDepth` pass — report the maximum
combinational depth, or `undefined` when the analysis yields no value. -/
def ReportDepth.run (nl : Netlist) : Except PassError (String × Netlist) :=
  match SimpleCombDepth.get_max_depth nl with
  | some depth => .ok ("Maximum combinational depth: " ++ Nat.repr depth, nl)
  | none => .ok ("Maximum combinational depth: undefined", nl)

/-- A pass as invoked by the pipeline: it reads the shared netlist and, on
success, returns its textual report and the mutated netlist. -/
def PassFn : Type := Netlist → Except PassError (String × Netlist)

/-- What `main` did at one pipeline step: the pass index, the pass's report
(`none` when the pass failed), whether `verify()` ran and succeeded, and
whether the report was printed as the final output. -/
structure StepLog where
  idx : Nat
  output : Option String
  verifyRan : Bool
  verifyOk : Bool
  didEmit : Bool
deriving DecidableEq, Repr

/-- From `nl_opt.rs` (`main`): run the passes starting at index `i` of a
list of `n` passes.  Each step runs the pass; on failure the run aborts.
On success, if this is the last pass (`i = n - 1`) the netlist is verified
and, only if verification succeeds, the report is emitted; otherwise the
netlist is verified only when verify-on-every-pass is enabled.  Any
verification failure aborts the run.  The verifier itself is external to
the sources, so it is passed in as a function. -/
def runFrom (verifyFn : Netlist → Bool) (verifyAll : Bool) (n : Nat) :
    Nat → List PassFn → Netlist → List StepLog × Bool
  | _, [], _ => ([], true)
  | i, p :: rest, nl =>
    match p nl with
    | .error _ => ([⟨i, none, false, false, false⟩], false)
    | .ok (out, nl') =>
      if i = n - 1 then
        if verifyFn nl' then
          let r := runFrom verifyFn verifyAll n (i + 1) rest nl'
          (⟨i, some out, true, true, true⟩ :: r.1, r.2)
        else ([⟨i, some out, true, false, false⟩], false)
      else if verifyAll then
        if verifyFn nl' then
          let r := runFrom verifyFn verifyAll n (i + 1) rest nl'
          (⟨i, some out, true, true, false⟩ :: r.1, r.2)
        else ([⟨i, some out, true, false, false⟩], false)
      else
        let r := runFrom verifyFn verifyAll n (i + 1) rest nl'
        (⟨i, some out, false, false, false⟩ :: r.1, r.2)

/-- From `nl_opt.rs` (`main`): the whole pipeline run over the requested
pass list; the second component is `true` exactly when the process exits
successfully. -/
def runMain (passes : List PassFn) (verifyFn : Netlist → Bool) (verifyAll : Bool)
    (nl : Netlist) : List StepLog × Bool :=
  runFrom verifyFn verifyAll passes.length 0 passes nl

/-- A trivial netlist used to exercise the pipeline theorems on concrete
runs. -/
def nlEmpty : Netlist := ⟨[], [], []⟩

/-- A pass that always succeeds with report `A`. -/
def passOkA : PassFn := fun nl => .ok ("A", nl)

/-- A pass that always succeeds with report `B`. -/
def passOkB : PassFn := fun nl => .ok ("B", nl)

/-- A pass that always fails. -/
def passFail : PassFn := fun _ => .error (.other "boom")

/-- A verifier that always succeeds. -/
def verifyAlways : Netlist → Bool := fun _ => true

/-- A one-instance netlist with no connections. -/
def nlOne : Netlist :=
  { insts := [(0, ⟨⟨['A']⟩, false, []⟩)], nets := [], outs := [] }

/-- A two-instance combinational chain `B → A` (acyclic). -/
def nlChain : Netlist :=
  { insts := [(0, ⟨⟨['A']⟩, false, [some 10]⟩), (1, ⟨⟨['B']⟩, false, []⟩)],
    nets := [(10, ⟨⟨['w']⟩, some 1⟩)], outs := [10] }

/-- A one-instance netlist whose only arc is a combinational self-loop. -/
def nlLoop : Netlist :=
  { insts := [(0, ⟨⟨['A']⟩, false, [some 5]⟩)],
    nets := [(5, ⟨⟨['w']⟩, some 0⟩)], outs := [5] }

/-- A netlist with a single register whose input is connected. -/
def nlReg : Netlist :=
  { insts := [(0, ⟨⟨['R']⟩, true, [some 5]⟩)],
    nets := [(5, ⟨⟨['w']⟩, some 0⟩)], outs := [5] }

/-- `nlReg` after its register input has been disconnected. -/
def nlRegAfter : Netlist :=
  { insts := [(0, ⟨⟨['R']⟩, true, [none]⟩)],
    nets := [(5, ⟨⟨['w']⟩, some 0⟩)], outs := [5] }

/-- `n` copies of the `arc_` marker prepended to an identifier. -/
def prependArcs : Nat → Identifier → Identifier
  | 0, x => x
  | n + 1, x => arcTag.add (prependArcs n x)

/-- A netlist whose single instance drives two of its own inputs: both
self-loop arcs are feedback arcs, so the instance is marked twice. -/
def nlSelf2 : Netlist :=
  { insts := [(0, ⟨⟨['A']⟩, false, [some 5, some 6]⟩)],
    nets := [(5, ⟨⟨['u']⟩, some 0⟩), (6, ⟨⟨['v']⟩, some 0⟩)], outs := [5] }

/-- The raw content of input port `p` of instance `t`: `none` when the
instance or port is absent, `some none` when the port is disconnected. -/

def getPort (nl : Netlist) (t p : Nat) : Option (Option Nat) :=
  (nl.lookupInst t).bind fun i => i.inputs.get? p

/-- The three-instance combinational cycle `A → B → C → A` from the spec's
end-to-end example. -/
def nlC : Netlist :=
  { insts := [(0, ⟨⟨['A']⟩, false, [some 12]⟩), (1, ⟨⟨['B']⟩, false, [some 10]⟩),
              (2, ⟨⟨['C']⟩, false, [some 11]⟩)],
    nets := [(10, ⟨⟨['a']⟩, some 0⟩), (11, ⟨⟨['b']⟩, some 1⟩), (12, ⟨⟨['c']⟩, some 2⟩)],
    outs := [10] }

theorem liveStep_infl_1 (nl : Netlist) (S : Finset Nat × Finset Nat) :
    S.1 ⊆ (liveStep nl S).1 := Finset.subset_union_left

theorem liveStep_infl_2 (nl : Netlist) (S : Finset Nat × Finset Nat) :
    S.2 ⊆ (liveStep nl S).2 := Finset.subset_union_left

theorem liveStep_keys_1 (nl : Netlist) (S : Finset Nat × Finset Nat)
    (h1 : S.1 ⊆ nl.instKeys) : (liveStep nl S).1 ⊆ nl.instKeys :=
  Finset.union_subset h1 (Finset.filter_subset _ _)

theorem liveStep_keys_2 (nl : Netlist) (S : Finset Nat × Finset Nat)
    (h2 : S.2 ⊆ nl.netKeys) : (liveStep nl S).2 ⊆ nl.netKeys :=
  Finset.union_subset h2 (Finset.filter_subset _ _)

theorem liveStep_gas_lt (nl : Netlist) (S : Finset Nat × Finset Nat)
    (h1 : S.1 ⊆ nl.instKeys) (h2 : S.2 ⊆ nl.netKeys)
    (hs : ¬((liveStep nl S).1 ⊆ S.1 ∧ (liveStep nl S).2 ⊆ S.2)) :
    liveGas nl (liveStep nl S) < liveGas nl S := by
  have hc1 : S.1.card ≤ (liveStep nl S).1.card :=
    Finset.card_le_card (liveStep_infl_1 nl S)
  have hc2 : S.2.card ≤ (liveStep nl S).2.card :=
    Finset.card_le_card (liveStep_infl_2 nl S)
  have hk1 : (liveStep nl S).1.card ≤ nl.instKeys.card :=
    Finset.card_le_card (liveStep_keys_1 nl S h1)
  have hk2 : (liveStep nl S).2.card ≤ nl.netKeys.card :=
    Finset.card_le_card (liveStep_keys_2 nl S h2)
  have hlt : S.1.card + S.2.card < (liveStep nl S).1.card + (liveStep nl S).2.card := by
    rcases not_and_or.mp hs with h | h
    · have : S.1 ⊂ (liveStep nl S).1 := Finset.ssubset_def.mpr ⟨liveStep_infl_1 nl S, h⟩
      have := Finset.card_lt_card this
      omega
    · have : S.2 ⊂ (liveStep nl S).2 := Finset.ssubset_def.mpr ⟨liveStep_infl_2 nl S, h⟩
      have := Finset.card_lt_card this
      omega
  unfold liveGas
  omega

theorem runFrom_idx (vf : Netlist → Bool) (va : Bool) (n : Nat) (ps : List PassFn) :
    ∀ (i : Nat) (nl : Netlist),
      (runFrom vf va n i ps nl).1.map StepLog.idx =
        List.range' i (runFrom vf va n i ps nl).1.length := by
  induction ps with
  | nil => intro i nl; rfl
  | cons p rest ih =>
    intro i nl
    simp only [runFrom]
    cases hp : p nl with
    | error e => rfl
    | ok r =>
      obtain ⟨out, nl'⟩ := r
      dsimp only
      by_cases hi : i = n - 1
      · rw [if_pos hi]
        cases hv : vf nl'
        · rfl
        · simpa [List.range'_succ] using ih (i + 1) nl'
      · rw [if_neg hi]
        by_cases hva : va = true
        · rw [if_pos hva]
          cases hv : vf nl'
          · rfl
          · simpa [List.range'_succ] using ih (i + 1) nl'
        · rw [if_neg hva]
          simpa [List.range'_succ] using ih (i + 1) nl'

theorem runFrom_verify_sched (vf : Netlist → Bool) (va : Bool) (n : Nat) (ps : List PassFn) :
    ∀ (i : Nat) (nl : Netlist), ∀ l ∈ (runFrom vf va n i ps nl).1,
      l.output.isSome = true → l.verifyRan = (decide (l.idx = n - 1) || va) := by
  induction ps with
  | nil => intro i nl l hl; cases hl
  | cons p rest ih =>
    intro i nl l hl
    simp only [runFrom] at hl
    cases hp : p nl with
    | error e =>
      rw [hp] at hl
      dsimp only at hl
      simp only [List.mem_singleton] at hl
      subst hl; intro h; cases h
    | ok r =>
      rw [hp] at hl
      obtain ⟨out, nl'⟩ := r
      dsimp only at hl
      by_cases hi : i = n - 1
      · rw [if_pos hi] at hl
        cases hv : vf nl' <;> rw [hv] at hl <;> simp only [Bool.false_eq_true, if_false,
          if_true] at hl
        · simp only [List.mem_singleton] at hl
          subst hl; intro _; simp [hi]
        · rcases List.mem_cons.mp hl with h | h
          · subst h; intro _; simp [hi]
          · exact ih (i + 1) nl' l h
      · rw [if_neg hi] at hl
        by_cases hva : va = true
        · rw [if_pos hva] at hl
          cases hv : vf nl' <;> rw [hv] at hl <;> simp only [Bool.false_eq_true, if_false,
            if_true] at hl
          · simp only [List.mem_singleton] at hl
            subst hl; intro _; simp [hva]
          · rcases List.mem_cons.mp hl with h | h
            · subst h; intro _; simp [hva]
            · exact ih (i + 1) nl' l h
        · rw [if_neg hva] at hl
          rcases List.mem_cons.mp hl with h | h
          · subst h; intro _; simp [hi, Bool.eq_false_iff.mpr hva]
          · exact ih (i + 1) nl' l h

theorem runFrom_emit (vf : Netlist → Bool) (va : Bool) (n : Nat) (ps : List PassFn) :
    ∀ (i : Nat) (nl : Netlist), ∀ l ∈ (runFrom vf va n i ps nl).1,
      l.didEmit = true →
        l.idx = n - 1 ∧ l.output.isSome = true ∧ l.verifyRan = true ∧ l.verifyOk = true := by
  induction ps with
  | nil => intro i nl l hl; cases hl
  | cons p rest ih =>
    intro i nl l hl
    simp only [runFrom] at hl
    cases hp : p nl with
    | error e =>
      rw [hp] at hl
      dsimp only at hl
      simp only [List.mem_singleton] at hl
      subst hl; intro h; cases h
    | ok r =>
      rw [hp] at hl
      obtain ⟨out, nl'⟩ := r
      dsimp only at hl
      by_cases hi : i = n - 1
      · rw [if_pos hi] at hl
        cases hv : vf nl' <;> rw [hv] at hl <;> simp only [Bool.false_eq_true, if_false,
          if_true] at hl
        · simp only [List.mem_singleton] at hl
          subst hl; intro h; cases h
        · rcases List.mem_cons.mp hl with h | h
          · subst h; intro _; exact ⟨hi, rfl, rfl, rfl⟩
          · exact ih (i + 1) nl' l h
      · rw [if_neg hi] at hl
        by_cases hva : va = true
        · rw [if_pos hva] at hl
          cases hv : vf nl' <;> rw [hv] at hl <;> simp only [Bool.false_eq_true, if_false,
            if_true] at hl
          · simp only [List.mem_singleton] at hl
            subst hl; intro h; cases h
          · rcases List.mem_cons.mp hl with h | h
            · subst h; intro h; cases h
            · exact ih (i + 1) nl' l h
        · rw [if_neg hva] at hl
          rcases List.mem_cons.mp hl with h | h
          · subst h; intro h; cases h
          · exact ih (i + 1) nl' l h

theorem runFrom_success (vf : Netlist → Bool) (va : Bool) (n : Nat) (ps : List PassFn) :
    ∀ (i : Nat) (nl : Netlist), i + ps.length = n →
      (runFrom vf va n i ps nl).2 = true →
        (runFrom vf va n i ps nl).1.length = ps.length ∧
        (ps ≠ [] →
          ∃ l, (runFrom vf va n i ps nl).1.getLast? = some l ∧ l.didEmit = true) := by
  induction ps with
  | nil => intro i nl hn hok; exact ⟨rfl, fun h => absurd rfl h⟩
  | cons p rest ih =>
    intro i nl hn hok
    simp only [runFrom] at hok ⊢
    cases hp : p nl with
    | error e => rw [hp] at hok; cases hok
    | ok r =>
      rw [hp] at hok
      obtain ⟨out, nl'⟩ := r
      dsimp only at hok ⊢
      simp only [List.length_cons] at hn
      by_cases hi : i = n - 1
      · have hrest : rest = [] := by
          have hrl : rest.length = 0 := by omega
          exact List.length_eq_zero.mp hrl
        subst hrest
        rw [if_pos hi] at hok ⊢
        cases hv : vf nl' <;> rw [hv] at hok
        · simp only [Bool.false_eq_true, if_false] at hok
        · simp only [if_true]
          exact ⟨rfl, fun _ => ⟨_, rfl, rfl⟩⟩
      · have hrest : rest ≠ [] := by
          intro h; subst h; simp only [List.length_nil] at hn; omega
        have hn' : i + 1 + rest.length = n := by omega
        rw [if_neg hi] at hok ⊢
        by_cases hva : va = true
        · rw [if_pos hva] at hok ⊢
          cases hv : vf nl' <;> rw [hv] at hok
          · simp only [Bool.false_eq_true, if_false] at hok
          · simp only [if_true] at hok ⊢
            obtain ⟨hlen, hlast⟩ := ih (i + 1) nl' hn' hok
            obtain ⟨l, hl, hemit⟩ := hlast hrest
            refine ⟨by simp [hlen], fun _ => ⟨l, ?_, hemit⟩⟩
            have hne : (runFrom vf va n (i + 1) rest nl').1 ≠ [] := by
              intro h
              rw [h] at hlen
              exact hrest (List.length_eq_zero.mp hlen.symm)
            cases hq : (runFrom vf va n (i + 1) rest nl').1 with
            | nil => exact absurd hq hne
            | cons x xs => rw [hq] at hl; rw [List.getLast?_cons_cons]; exact hl
        · rw [if_neg hva] at hok ⊢
          obtain ⟨hlen, hlast⟩ := ih (i + 1) nl' hn' hok
          obtain ⟨l, hl, hemit⟩ := hlast hrest
          refine ⟨by simp [hlen], fun _ => ⟨l, ?_, hemit⟩⟩
          have hne : (runFrom vf va n (i + 1) rest nl').1 ≠ [] := by
            intro h
            rw [h] at hlen
            exact hrest (List.length_eq_zero.mp hlen.symm)
          cases hq : (runFrom vf va n (i + 1) rest nl').1 with
          | nil => exact absurd hq hne
          | cons x xs => rw [hq] at hl; rw [List.getLast?_cons_cons]; exact hl

theorem runFrom_failure (vf : Netlist → Bool) (va : Bool) (n : Nat) (ps : List PassFn) :
    ∀ (i : Nat) (nl : Netlist), (runFrom vf va n i ps nl).2 = false →
      ∃ pre l, (runFrom vf va n i ps nl).1 = pre ++ [l] ∧
        (l.output = none ∨ (l.verifyRan = true ∧ l.verifyOk = false)) ∧
        i + pre.length = l.idx ∧
        (∀ l' ∈ pre, l'.output.isSome = true ∧ (l'.verifyRan = true → l'.verifyOk = true)) := by
  induction ps with
  | nil => intro i nl hok; cases hok
  | cons p rest ih =>
    intro i nl hok
    simp only [runFrom] at hok ⊢
    cases hp : p nl with
    | error e =>
      rw [hp] at hok
      exact ⟨[], ⟨i, none, false, false, false⟩, rfl, Or.inl rfl, rfl, by intro l' hl'; cases hl'⟩
    | ok r =>
      rw [hp] at hok
      obtain ⟨out, nl'⟩ := r
      dsimp only at hok ⊢
      by_cases hi : i = n - 1
      · rw [if_pos hi] at hok ⊢
        cases hv : vf nl' <;> rw [hv] at hok
        · simp only [Bool.false_eq_true, if_false] at hok ⊢
          exact ⟨[], ⟨i, some out, true, false, false⟩, rfl, Or.inr ⟨rfl, rfl⟩, rfl,
            by intro l' hl'; cases hl'⟩
        · simp only [if_true] at hok ⊢
          obtain ⟨pre, l, heq, hfail, hidx, hpre⟩ := ih (i + 1) nl' hok
          refine ⟨⟨i, some out, true, true, true⟩ :: pre, l, by rw [heq, List.cons_append], hfail,
            by simp only [List.length_cons]; omega, ?_⟩
          intro l' hl'
          rcases List.mem_cons.mp hl' with h | h
          · subst h; exact ⟨rfl, fun _ => rfl⟩
          · exact hpre l' h
      · rw [if_neg hi] at hok ⊢
        by_cases hva : va = true
        · rw [if_pos hva] at hok ⊢
          cases hv : vf nl' <;> rw [hv] at hok
          · simp only [Bool.false_eq_true, if_false] at hok ⊢
            exact ⟨[], ⟨i, some out, true, false, false⟩, rfl, Or.inr ⟨rfl, rfl⟩, rfl,
              by intro l' hl'; cases hl'⟩
          · simp only [if_true] at hok ⊢
            obtain ⟨pre, l, heq, hfail, hidx, hpre⟩ := ih (i + 1) nl' hok
            refine ⟨⟨i, some out, true, true, false⟩ :: pre, l, by rw [heq, List.cons_append], hfail,
              by simp only [List.length_cons]; omega, ?_⟩
            intro l' hl'
            rcases List.mem_cons.mp hl' with h | h
            · subst h; exact ⟨rfl, fun _ => rfl⟩
            · exact hpre l' h
        · rw [if_neg hva] at hok ⊢
          obtain ⟨pre, l, heq, hfail, hidx, hpre⟩ := ih (i + 1) nl' hok
          refine ⟨⟨i, some out, false, false, false⟩ :: pre, l, by rw [heq, List.cons_append], hfail,
            by simp only [List.length_cons]; omega, ?_⟩
          intro l' hl'
          rcases List.mem_cons.mp hl' with h | h
          · subst h; exact ⟨rfl, fun h => by cases h⟩
          · exact hpre l' h

/-- C1: for every pass list of length `n`, the pipeline invokes the passes
strictly in the caller-specified order (the executed step indices are
`0, 1, 2, ...` in order); after each successful pass `i`, `verify()` is
invoked if and only if `i` is the last pass (`i = n - 1`) or the
verify-on-every-pass flag is enabled; and the final pass's report is
emitted only after its verification succeeds. -/
theorem pipeline_order_and_verify_schedule (passes : List PassFn)
    (verifyFn : Netlist → Bool) (verifyAll : Bool) (nl : Netlist) :
    (runMain passes verifyFn verifyAll nl).1.map StepLog.idx =
        List.range (runMain passes verifyFn verifyAll nl).1.length ∧
    (∀ l ∈ (runMain passes verifyFn verifyAll nl).1, l.output.isSome = true →
        l.verifyRan = (decide (l.idx = passes.length - 1) || verifyAll)) ∧
    (∀ l ∈ (runMain passes verifyFn verifyAll nl).1, l.didEmit = true →
        l.idx = passes.length - 1 ∧ l.output.isSome = true ∧ l.verifyRan = true ∧
          l.verifyOk = true) := by
  refine ⟨?_, runFrom_verify_sched verifyFn verifyAll passes.length passes 0 nl,
    runFrom_emit verifyFn verifyAll passes.length passes 0 nl⟩
  have h := runFrom_idx verifyFn verifyAll passes.length passes 0 nl
  rw [List.range_eq_range']
  exact h

theorem pipeline_order_and_verify_schedule_witness :
    ((⟨1, some "B", true, true, true⟩ : StepLog) ∈
        (runMain [passOkA, passOkB] verifyAlways false nlEmpty).1 ∧
      (⟨1, some "B", true, true, true⟩ : StepLog).output.isSome = true) ∧
    (⟨1, some "B", true, true, true⟩ : StepLog).verifyRan =
      (decide ((⟨1, some "B", true, true, true⟩ : StepLog).idx =
        [passOkA, passOkB].length - 1) || false) :=
  ⟨⟨by decide, by decide⟩,
    (pipeline_order_and_verify_schedule [passOkA, passOkB] verifyAlways false nlEmpty).2.1
      ⟨1, some "B", true, true, true⟩ (by decide) (by decide)⟩

/-- C2: for every pass list, if any pass returns an error or any performed
verification fails, the run fails and stops at that step (the logs are the
clean prefix plus the single failing step, whose index equals the number of
preceding steps, so no subsequent pass is executed); if every pass and
every performed verification (in particular the final one) succeed, every
pass is executed and the final pass's report is emitted. -/
theorem pipeline_exit_behavior (passes : List PassFn) (verifyFn : Netlist → Bool)
    (verifyAll : Bool) (nl : Netlist) :
    ((runMain passes verifyFn verifyAll nl).2 = true →
      (runMain passes verifyFn verifyAll nl).1.length = passes.length ∧
      (passes ≠ [] → ∃ l, (runMain passes verifyFn verifyAll nl).1.getLast? = some l ∧
        l.didEmit = true)) ∧
    ((runMain passes verifyFn verifyAll nl).2 = false →
      ∃ pre l, (runMain passes verifyFn verifyAll nl).1 = pre ++ [l] ∧
        (l.output = none ∨ (l.verifyRan = true ∧ l.verifyOk = false)) ∧
        pre.length = l.idx ∧
        (∀ l' ∈ pre, l'.output.isSome = true ∧ (l'.verifyRan = true → l'.verifyOk = true))) := by
  constructor
  · intro hok
    exact runFrom_success verifyFn verifyAll passes.length passes 0 nl (by simp) hok
  · intro hfail
    obtain ⟨pre, l, heq, hkind, hidx, hpre⟩ :=
      runFrom_failure verifyFn verifyAll passes.length passes 0 nl hfail
    exact ⟨pre, l, heq, hkind, by omega, hpre⟩

theorem pipeline_exit_behavior_witness :
    ((runMain [passOkA] verifyAlways false nlEmpty).2 = true ∧
      (runMain [passOkA] verifyAlways false nlEmpty).1.length = [passOkA].length) ∧
    ((runMain [passOkA, passFail] verifyAlways false nlEmpty).2 = false ∧
      ∃ pre l, (runMain [passOkA, passFail] verifyAlways false nlEmpty).1 = pre ++ [l] ∧
        (l.output = none ∨ (l.verifyRan = true ∧ l.verifyOk = false)) ∧
        pre.length = l.idx ∧
        (∀ l' ∈ pre, l'.output.isSome = true ∧ (l'.verifyRan = true → l'.verifyOk = true))) :=
  ⟨⟨by decide,
      ((pipeline_exit_behavior [passOkA] verifyAlways false nlEmpty).1 (by decide)).1⟩,
    ⟨by decide,
      (pipeline_exit_behavior [passOkA, passFail] verifyAlways false nlEmpty).2 (by decide)⟩⟩

/-- C9: when Xilinx-specific port naming is enabled, the compilation
override maps every cell whose identifier name equals `INV` to the same
cell (all other fields unchanged, so connectivity is untouched) with input
port 0 remapped to `I` and output port 0 remapped to `O`, and returns no
override for every other cell. -/
theorem xilinx_overrides_inv_remap (id : Identifier) (cell : PrimitiveCell) :
    (id.get_name = ['I', 'N', 'V'] →
      xilinx_overrides id cell =
        some { inputPorts := cell.inputPorts.set 0 ⟨['I']⟩,
               outputPorts := cell.outputPorts.set 0 ⟨['O']⟩,
               seq := cell.seq }) ∧
    (id.get_name ≠ ['I', 'N', 'V'] → xilinx_overrides id cell = none) := by
  constructor <;> intro h
  · simp [xilinx_overrides, PrimitiveCell.remap_input, PrimitiveCell.remap_output, h]
  · simp [xilinx_overrides, h]

theorem xilinx_overrides_inv_remap_witness :
    ((Identifier.mk ['I', 'N', 'V']).get_name = ['I', 'N', 'V'] ∧
      xilinx_overrides ⟨['I', 'N', 'V']⟩ ⟨[⟨['Q']⟩], [⟨['R']⟩], false⟩ =
        some ⟨[⟨['I']⟩], [⟨['O']⟩], false⟩) ∧
    ((Identifier.mk ['L', 'U', 'T']).get_name ≠ ['I', 'N', 'V'] ∧
      xilinx_overrides ⟨['L', 'U', 'T']⟩ ⟨[⟨['Q']⟩], [⟨['R']⟩], false⟩ = none) :=
  ⟨⟨by decide,
      (xilinx_overrides_inv_remap ⟨['I', 'N', 'V']⟩ ⟨[⟨['Q']⟩], [⟨['R']⟩], false⟩).1
        (by decide)⟩,
    ⟨by decide,
      (xilinx_overrides_inv_remap ⟨['L', 'U', 'T']⟩ ⟨[⟨['Q']⟩], [⟨['R']⟩], false⟩).2
        (by decide)⟩⟩

/-- C5 counterexample: on the one-instance netlist the report's component
counts are exactly as the claim computes them (`X = 0` non-trivial, `Y = 1`
total), but the pass returns the string with the source's spelling
`conncected`, which is not the exact string the claim states (with
`connected`). -/
theorem reportSccs_exact_string_counterexample :
    (nlOne.toGraph.sccs.filter fun c => decide (1 < c.length)).length = 0 ∧
    nlOne.toGraph.sccs.length = 1 ∧
    ReportSccs.run nlOne =
      .ok ("Netlist contains 0 non-trivial strongly conncected components (1 total)", nlOne) ∧
    ("Netlist contains 0 non-trivial strongly conncected components (1 total)" : String) ≠
      "Netlist contains 0 non-trivial strongly connected components (1 total)" :=
  ⟨by decide, by decide, rfl, by decide⟩

/-- C5 (amended): for any netlist, the `report-sccs` pass returns exactly
the string `Netlist contains X non-trivial strongly conncected components
(Y total)` (with the source's spelling `conncected`), where `X` is the
number of strongly connected components of size greater than 1 and `Y` is
the total number of strongly connected components. -/
theorem reportSccs_report (nl : Netlist) :
    ReportSccs.run nl =
      .ok ("Netlist contains " ++
            Nat.repr ((nl.toGraph.sccs.filter fun c => decide (1 < c.length)).length) ++
            " non-trivial strongly conncected components (" ++
            Nat.repr nl.toGraph.sccs.length ++ " total)", nl) := rfl

/-- C4: for any netlist, the `report-depth` pass returns
`Maximum combinational depth: D` with `D` a natural number when the
combinational-only subgraph is acyclic, and returns the report with
`undefined` in place of a number — the analysis yields no value, not zero
and not an error — when the combinational-only subgraph contains a cycle
(as detected through the SCC result). -/
theorem reportDepth_defined_or_undefined (nl : Netlist) :
    (nl.hasCombCycle = false →
      SimpleCombDepth.get_max_depth nl = some nl.maxCombDepth ∧
      ReportDepth.run nl =
        .ok ("Maximum combinational depth: " ++ Nat.repr nl.maxCombDepth, nl)) ∧
    (nl.hasCombCycle = true →
      SimpleCombDepth.get_max_depth nl = none ∧
      ReportDepth.run nl = .ok ("Maximum combinational depth: undefined", nl)) := by
  constructor <;> intro h <;>
    simp [ReportDepth.run, SimpleCombDepth.get_max_depth, h]

theorem reportDepth_defined_or_undefined_witness :
    (nlChain.hasCombCycle = false ∧
      ReportDepth.run nlChain =
        .ok ("Maximum combinational depth: " ++ Nat.repr nlChain.maxCombDepth, nlChain)) ∧
    (nlLoop.hasCombCycle = true ∧
      ReportDepth.run nlLoop = .ok ("Maximum combinational depth: undefined", nlLoop)) :=
  ⟨⟨by decide, ((reportDepth_defined_or_undefined nlChain).1 (by decide)).2⟩,
    ⟨by decide, ((reportDepth_defined_or_undefined nlLoop).2 (by decide)).2⟩⟩

theorem set_none_of_disconnected :
    ∀ (l : List (Option Nat)) (p : Nat), (l.get? p).bind id = none → l.set p none = l := by
  intro l
  induction l with
  | nil => intro p _; rfl
  | cons x rest ih =>
    intro p h
    cases p with
    | zero =>
      cases x with
      | none => rfl
      | some v => exact absurd h (by simp)
    | succ q =>
      simp only [List.set]
      rw [ih q h]

theorem updateFirst_of_lookup_none {α : Type} (f : α → α) (t : Nat) :
    ∀ l : List (Nat × α), alookup l t = none → updateFirst f t l = l := by
  intro l
  induction l with
  | nil => intro _; rfl
  | cons q rest ih =>
    obtain ⟨k, x⟩ := q
    intro h
    simp only [alookup] at h
    by_cases hk : k = t
    · rw [if_pos hk] at h; cases h
    · rw [if_neg hk] at h
      simp only [updateFirst, if_neg hk]
      rw [ih h]

theorem updateFirst_of_fix {α : Type} (f : α → α) (t : Nat) :
    ∀ (l : List (Nat × α)) (x : α), alookup l t = some x → f x = x → updateFirst f t l = l := by
  intro l
  induction l with
  | nil => intro x h _; cases h
  | cons q rest ih =>
    obtain ⟨k, y⟩ := q
    intro x h hfix
    simp only [alookup] at h
    by_cases hk : k = t
    · rw [if_pos hk] at h
      injection h with h
      subst h
      simp only [updateFirst, if_pos hk, hfix]
    · rw [if_neg hk] at h
      simp only [updateFirst, if_neg hk]
      rw [ih x h hfix]

theorem discRegsGo_post :
    ∀ l : List (Nat × Inst), ∀ k i, (k, i) ∈ (discRegsGo l).2 →
      i.is_seq = true → ∀ o ∈ i.inputs, o = none := by
  intro l
  induction l with
  | nil => intro k i hk; cases hk
  | cons q rest ih =>
    obtain ⟨k', inst⟩ := q
    intro k i hk hseq o ho
    simp only [discRegsGo] at hk
    by_cases hs : inst.is_seq = true
    · rw [if_pos hs] at hk
      rcases List.mem_cons.mp hk with h | h
      · have hi : i = (discRegInst inst).2 := (Prod.mk.injEq _ _ _ _ ▸ h).2
        subst hi
        simp only [discRegInst] at ho
        rcases List.mem_map.mp ho with ⟨_, _, hmap⟩
        exact hmap.symm
      · exact ih k i h hseq o ho
    · rw [if_neg hs] at hk
      rcases List.mem_cons.mp hk with h | h
      · have hi : i = inst := (Prod.mk.injEq _ _ _ _ ▸ h).2
        subst hi
        exact absurd hseq hs
      · exact ih k i h hseq o ho

theorem map_const_none_id :
    ∀ l : List (Option Nat), (∀ o ∈ l, o = none) → (l.map fun _ => none) = l := by
  intro l
  induction l with
  | nil => intro _; rfl
  | cons x rest ih =>
    intro h
    have hx : x = none := h x (List.mem_cons_self x rest)
    simp only [List.map, hx]
    rw [ih fun o ho => h o (List.mem_cons_of_mem x ho)]

theorem any_isSome_eq_false :
    ∀ l : List (Option Nat), (∀ o ∈ l, o = none) → l.any Option.isSome = false := by
  intro l
  induction l with
  | nil => intro _; rfl
  | cons x rest ih =>
    intro h
    have hx : x = none := h x (List.mem_cons_self x rest)
    simp only [List.any, hx, Option.isSome_none, Bool.false_or]
    exact ih fun o ho => h o (List.mem_cons_of_mem x ho)

theorem discRegsGo_stable :
    ∀ l : List (Nat × Inst),
      (∀ k i, (k, i) ∈ l → i.is_seq = true → ∀ o ∈ i.inputs, o = none) →
      discRegsGo l = (0, l) := by
  intro l
  induction l with
  | nil => intro _; rfl
  | cons q rest ih =>
    obtain ⟨k', inst⟩ := q
    intro h
    have hrest := ih fun k i hk => h k i (List.mem_cons_of_mem _ hk)
    simp only [discRegsGo, hrest]
    by_cases hs : inst.is_seq = true
    · rw [if_pos hs]
      have hall : ∀ o ∈ inst.inputs, o = none :=
        h k' inst (List.mem_cons_self _ _) hs
      have h1 : (discRegInst inst).1 = false := any_isSome_eq_false inst.inputs hall
      have h2 : (discRegInst inst).2 = inst := by
        show ({ inst with inputs := inst.inputs.map fun _ => none }) = inst
        rw [map_const_none_id inst.inputs hall]
      rw [h1, h2]
      simp
    · rw [if_neg hs]

/-- C8: calling `disconnect` on an input port that is already disconnected
returns no removed-net value and leaves the netlist state unchanged;
consequently, running the `disconnect-registers` pass a second time on the
same netlist reports `Disconnected 0 registers`, since its count only
increments for a sequential instance when at least one of its inputs'
disconnect calls returns a removed net. -/
theorem disconnect_already_disconnected_idempotent :
    (∀ (nl : Netlist) (t p : Nat), nl.inputDriver t p = none →
      nl.disconnect t p = (none, nl)) ∧
    (∀ (nl nl₁ : Netlist) (s : String), DisconnectRegisters.run nl = .ok (s, nl₁) →
      DisconnectRegisters.run nl₁ = .ok ("Disconnected 0 registers", nl₁)) := by
  constructor
  · intro nl t p h
    unfold Netlist.disconnect
    rw [h]
    unfold Netlist.disconnectPort
    unfold Netlist.inputDriver at h
    cases hl : nl.lookupInst t with
    | none =>
      rw [updateFirst_of_lookup_none _ t nl.insts hl]
    | some i =>
      rw [hl] at h
      have hset : i.inputs.set p none = i.inputs := set_none_of_disconnected i.inputs p h
      have hfix : (fun j => { j with inputs := j.inputs.set p none }) i = i := by
        show ({ i with inputs := i.inputs.set p none }) = i
        rw [hset]
      rw [updateFirst_of_fix _ t nl.insts i hl hfix]
  · intro nl nl₁ s hrun
    simp only [DisconnectRegisters.run, Except.ok.injEq, Prod.mk.injEq] at hrun
    have hinsts : nl₁.insts = (discRegsGo nl.insts).2 := by
      rw [← hrun.2]
    have hstable : discRegsGo nl₁.insts = (0, nl₁.insts) := by
      rw [hinsts]
      exact discRegsGo_stable _ (discRegsGo_post nl.insts)
    simp only [DisconnectRegisters.run, hstable]
    rfl

theorem disconnect_already_disconnected_idempotent_witness :
    (nlOne.inputDriver 0 0 = none ∧ nlOne.disconnect 0 0 = (none, nlOne)) ∧
    (DisconnectRegisters.run nlReg = .ok ("Disconnected 1 registers", nlRegAfter) ∧
      DisconnectRegisters.run nlRegAfter = .ok ("Disconnected 0 registers", nlRegAfter)) :=
  ⟨⟨by decide, disconnect_already_disconnected_idempotent.1 nlOne 0 0 (by decide)⟩,
    ⟨rfl, disconnect_already_disconnected_idempotent.2 nlReg nlRegAfter
      "Disconnected 1 registers" rfl⟩⟩

theorem prependArcs_add (m : Nat) (x : Identifier) :
    prependArcs m (arcTag.add x) = prependArcs (m + 1) x := by
  induction m with
  | zero => rfl
  | succ q ih => simp only [prependArcs, ih]

theorem alookup_updateFirst {α : Type} (f : α → α) (t : Nat) :
    ∀ (l : List (Nat × α)) (t' : Nat),
      alookup (updateFirst f t l) t' =
        if t' = t then (alookup l t).map f else alookup l t' := by
  intro l
  induction l with
  | nil =>
    intro t'
    by_cases h : t' = t <;> simp [updateFirst, alookup, h]
  | cons q rest ih =>
    obtain ⟨k, x⟩ := q
    intro t'
    by_cases hk : k = t
    · subst hk
      simp only [updateFirst, if_pos rfl, alookup]
      by_cases ht : t' = k
      · subst ht
        simp [alookup]
      · rw [if_neg ht, if_neg fun hh : k = t' => ht hh.symm,
          if_neg fun hh : k = t' => ht hh.symm]
    · simp only [updateFirst, if_neg hk, alookup]
      by_cases ht' : k = t'
      · subst ht'
        rw [if_pos rfl, if_neg fun hh : k = t => hk hh, if_pos rfl]
      · rw [if_neg ht', if_neg ht', ih t']

theorem get_instance_name_set (nl : Netlist) (t : Nat) (idn : Identifier) (k : Nat) :
    (nl.set_instance_name t idn).get_instance_name k =
      if k = t then (nl.get_instance_name k).map (fun _ => idn)
      else nl.get_instance_name k := by
  unfold Netlist.get_instance_name Netlist.set_instance_name Netlist.lookupInst
  simp only
  rw [alookup_updateFirst]
  by_cases hk : k = t
  · simp only [if_pos hk, hk]
    cases alookup nl.insts t <;> rfl
  · simp only [if_neg hk]

theorem markArcsGo_name :
    ∀ (fb : List Arc) (nl : Netlist) (k : Nat),
      (markArcsGo nl fb).get_instance_name k =
        (nl.get_instance_name k).map
          (prependArcs ((fb.filter fun a => decide (a.src = k)).length)) := by
  intro fb
  induction fb with
  | nil =>
    intro nl k
    simp only [markArcsGo, List.filter_nil, List.length_nil]
    cases nl.get_instance_name k <;> rfl
  | cons a rest ih =>
    intro nl k
    simp only [markArcsGo]
    rw [ih, get_instance_name_set]
    by_cases hk : k = a.src
    · rw [← hk, if_pos rfl]
      have hcount : ((a :: rest).filter fun b => decide (b.src = k)).length =
          ((rest.filter fun b => decide (b.src = k)).length) + 1 := by
        simp [List.filter_cons, hk.symm]
      rw [hcount]
      cases hg : nl.get_instance_name k with
      | none => rfl
      | some nm =>
        simp only [Option.map_some', Option.getD_some]
        rw [prependArcs_add]
    · rw [if_neg hk]
      have hane : a.src ≠ k := fun hh => hk hh.symm
      have hcount : ((a :: rest).filter fun b => decide (b.src = k)).length =
          (rest.filter fun b => decide (b.src = k)).length := by
        simp [List.filter_cons, hane]
      rw [hcount]

/-- C10: the `mark-arc-set` pass prepends `arc_` to the source instance's
name once per feedback arc, not once per instance — an instance that
sources `c` arcs of the greedy feedback arc set ends with `c` copies of
`arc_` prepended to its original name — and the reported count in
`Marked N arcs` is the number of arcs, which can exceed the number of
distinct instances renamed. -/
theorem markArcSet_stacks_marker_per_arc (nl : Netlist) (k : Nat) (i : Inst)
    (h : nl.lookupInst k = some i) :
    MarkArcSet.run nl =
      .ok ("Marked " ++ Nat.repr nl.toGraph.greedy_feedback_arcs.length ++ " arcs",
        markArcsGo nl nl.toGraph.greedy_feedback_arcs) ∧
    (markArcsGo nl nl.toGraph.greedy_feedback_arcs).get_instance_name k =
      some (prependArcs
        ((nl.toGraph.greedy_feedback_arcs.filter fun a => decide (a.src = k)).length)
        i.name) := by
  refine ⟨rfl, ?_⟩
  rw [markArcsGo_name]
  unfold Netlist.get_instance_name
  rw [h]
  rfl

theorem markArcSet_stacks_marker_per_arc_witness :
    nlSelf2.lookupInst 0 = some ⟨⟨['A']⟩, false, [some 5, some 6]⟩ ∧
    MarkArcSet.run nlSelf2 =
      .ok ("Marked " ++ Nat.repr nlSelf2.toGraph.greedy_feedback_arcs.length ++ " arcs",
        markArcsGo nlSelf2 nlSelf2.toGraph.greedy_feedback_arcs) ∧
    (markArcsGo nlSelf2 nlSelf2.toGraph.greedy_feedback_arcs).get_instance_name 0 =
      some (prependArcs
        ((nlSelf2.toGraph.greedy_feedback_arcs.filter fun a => decide (a.src = 0)).length)
        (Identifier.mk ['A'])) :=
  ⟨by decide,
    markArcSet_stacks_marker_per_arc nlSelf2 0 ⟨⟨['A']⟩, false, [some 5, some 6]⟩ (by decide)⟩

theorem digitChar_inj_lt : ∀ a < 10, ∀ b < 10, Nat.digitChar a = Nat.digitChar b → a = b := by
  decide

theorem map_digitChar_inj :
    ∀ l1 l2 : List Nat, (∀ d ∈ l1, d < 10) → (∀ d ∈ l2, d < 10) →
      l1.map Nat.digitChar = l2.map Nat.digitChar → l1 = l2 := by
  intro l1
  induction l1 with
  | nil =>
    intro l2 _ _ h
    cases l2 with
    | nil => rfl
    | cons b bs => cases h
  | cons a as ih =>
    intro l2 h1 h2 h
    cases l2 with
    | nil => cases h
    | cons b bs =>
      simp only [List.map, List.cons.injEq] at h
      have ha : a = b :=
        digitChar_inj_lt a (h1 a (List.mem_cons_self a as)) b
          (h2 b (List.mem_cons_self b bs)) h.1
      have hrest : as = bs :=
        ih bs (fun d hd => h1 d (List.mem_cons_of_mem a hd))
          (fun d hd => h2 d (List.mem_cons_of_mem b hd)) h.2
      rw [ha, hrest]

theorem digits_bounded (n : Nat) : ∀ d ∈ (Nat.digits 10 n).reverse, d < 10 := by
  intro d hd
  exact Nat.digits_lt_base (by norm_num) (List.mem_reverse.mp hd)

theorem natChars_inj : ∀ m n : Nat, natChars m = natChars n → m = n := by
  have key : ∀ m n : Nat, m ≠ 0 → n ≠ 0 → natChars m = natChars n → m = n := by
    intro m n hm hn h
    simp only [natChars, if_neg hm, if_neg hn] at h
    have hrev := map_digitChar_inj _ _ (digits_bounded m) (digits_bounded n) h
    have hdig := List.reverse_injective hrev
    have h1 := Nat.ofDigits_digits 10 m
    rw [hdig] at h1
    rw [← h1, Nat.ofDigits_digits 10 n]
  have zero : ∀ n : Nat, n ≠ 0 → natChars 0 ≠ natChars n := by
    intro n hn h
    simp only [natChars, if_pos rfl, if_neg hn] at h
    have h0 : ([0] : List Nat).map Nat.digitChar = ['0'] := rfl
    rw [← h0] at h
    have hz := map_digitChar_inj _ _ (by intro d hd; simp at hd; omega)
      (digits_bounded n) h
    have hrev := congrArg List.reverse hz
    simp only [List.reverse_reverse] at hrev
    have h1 := Nat.ofDigits_digits 10 n
    rw [← hrev] at h1
    simp [Nat.ofDigits] at h1
    exact hn h1.symm
  intro m n h
  by_cases hm : m = 0 <;> by_cases hn : n = 0
  · rw [hm, hn]
  · exact absurd (hm ▸ h) (zero n hn)
  · exact absurd (hn ▸ h).symm (zero m hm)
  · exact key m n hm hn h

theorem format_id_inj : Function.Injective format_id := by
  intro m n h
  simp only [format_id, Identifier.mk.injEq, List.cons.injEq, true_and] at h
  exact natChars_inj m n (List.append_cancel_right h)

theorem renameInsts_length (namer : Identifier → Nat → Identifier) :
    ∀ (l : List (Nat × Inst)) (s : Nat), (renameInsts namer s l).length = l.length := by
  intro l
  induction l with
  | nil => intro s; rfl
  | cons q rest ih =>
    obtain ⟨k, x⟩ := q
    intro s
    simp only [renameInsts, List.length_cons, ih]

theorem renameNetObjs_length (namer : Identifier → Nat → Identifier) :
    ∀ (l : List (Nat × Net)) (s : Nat), (renameNetObjs namer s l).length = l.length := by
  intro l
  induction l with
  | nil => intro s; rfl
  | cons q rest ih =>
    obtain ⟨k, x⟩ := q
    intro s
    simp only [renameNetObjs, List.length_cons, ih]

theorem renameInsts_names :
    ∀ (l : List (Nat × Inst)) (s : Nat),
      (renameInsts (fun _ i => format_id i) s l).map (fun p => p.2.name) =
        (List.range' s l.length).map format_id := by
  intro l
  induction l with
  | nil => intro s; rfl
  | cons q rest ih =>
    obtain ⟨k, x⟩ := q
    intro s
    simp only [renameInsts, List.map, List.length_cons, List.range'_succ, ih]

theorem renameNetObjs_names :
    ∀ (l : List (Nat × Net)) (s : Nat),
      (renameNetObjs (fun _ i => format_id i) s l).map (fun q => q.2.name) =
        (List.range' s l.length).map format_id := by
  intro l
  induction l with
  | nil => intro s; rfl
  | cons q rest ih =>
    obtain ⟨k, x⟩ := q
    intro s
    simp only [renameNetObjs, List.map, List.length_cons, List.range'_succ, ih]

/-- C7: after the `rename-nets` pass, which renames every net/instance with
the namer `(_, i) ↦ __i__` (distinct output names per ordinal index), all
net and instance names in the resulting netlist are pairwise distinct, and
the pass reports `Renamed N cells` where `N` is the netlist's live-object
count. -/
theorem renameNets_unique_names (nl : Netlist) :
    RenameNets.run nl =
      .ok ("Renamed " ++ Nat.repr nl.len ++ " cells",
        renameAll nl fun _ i => format_id i) ∧
    (renameAll nl fun _ i => format_id i).allNames.Nodup ∧
    (renameAll nl fun _ i => format_id i).len = nl.len := by
  have hnames : (renameAll nl fun _ i => format_id i).allNames =
      (List.range' 0 (nl.insts.length + nl.nets.length)).map format_id := by
    unfold renameAll Netlist.allNames
    simp only
    rw [renameInsts_names, renameNetObjs_names, ← List.map_append]
    have hr := List.range'_append 0 nl.insts.length nl.nets.length 1
    simp only [Nat.one_mul, Nat.zero_add] at hr
    rw [hr, Nat.add_comm nl.nets.length nl.insts.length]
  have hnodup : (renameAll nl fun _ i => format_id i).allNames.Nodup := by
    rw [hnames]
    exact (List.nodup_range' ..).map format_id_inj
  have hlen : (renameAll nl fun _ i => format_id i).len = nl.len := by
    unfold renameAll Netlist.len
    simp only [renameInsts_length, renameNetObjs_length]
  refine ⟨?_, hnodup, hlen⟩
  unfold RenameNets.run Netlist.rename_nets
  rw [if_pos hnodup]
  simp only
  rw [hlen]

theorem inputDriver_eq_getPort_bind (nl : Netlist) (t p : Nat) :
    nl.inputDriver t p = (getPort nl t p).bind id := by
  unfold Netlist.inputDriver getPort
  cases nl.lookupInst t with
  | none => rfl
  | some i => rfl

theorem reachIter_inv (g : MultiDiGraph) (P : Nat → Prop)
    (hstep : ∀ a ∈ g.arcs, P a.src → P a.tgt) :
    ∀ (k : Nat) (s : List Nat), (∀ x ∈ s, P x) → ∀ x ∈ reachIter g k s, P x := by
  intro k
  induction k with
  | zero => intro s hs x hx; exact hs x hx
  | succ q ih =>
    intro s hs x hx
    apply ih (reachStep g s) _ x hx
    intro y hy
    simp only [reachStep, List.mem_append] at hy
    rcases hy with h | h
    · exact hs y h
    · rcases List.mem_filterMap.mp h with ⟨a, ha, hcond⟩
      by_cases hmem : a.src ∈ s
      · rw [if_pos hmem] at hcond
        injection hcond with hcond
        subst hcond
        exact hstep a ha (hs a.src hmem)
      · rw [if_neg hmem] at hcond; cases hcond

theorem reaches_rank_mono (g : MultiDiGraph) (rk : Nat → Nat)
    (hstrict : ∀ a ∈ g.arcs, rk a.src < rk a.tgt) (u v : Nat)
    (h : Reaches g u v) : v = u ∨ rk u < rk v := by
  refine reachIter_inv g (fun x => x = u ∨ rk u < rk x) ?_ g.nodes.length [u] ?_ v h
  · intro a ha hsrc
    rcases hsrc with h1 | h1
    · right; rw [← h1]; exact hstrict a ha
    · right; exact Nat.lt_trans h1 (hstrict a ha)
  · intro x hx
    left
    exact List.mem_singleton.mp hx

theorem length_le_one_of_all_eq {l : List Nat} (hnd : l.Nodup) (v : Nat)
    (h : ∀ x ∈ l, x = v) : l.length ≤ 1 := by
  cases l with
  | nil => simp
  | cons a rest =>
    cases rest with
    | nil => simp
    | cons b rest2 =>
      exfalso
      have ha := h a (List.mem_cons_self a _)
      have hb := h b (List.mem_cons_of_mem a (List.mem_cons_self b rest2))
      rw [List.nodup_cons] at hnd
      exact hnd.1 (by rw [ha, ← hb]; exact List.mem_cons_self b rest2)

theorem sccs_trivial_of_rank_strict (g : MultiDiGraph) (rk : Nat → Nat)
    (hstrict : ∀ a ∈ g.arcs, rk a.src < rk a.tgt) (hnd : g.nodes.Nodup) :
    ∀ c ∈ g.sccs, c.length ≤ 1 := by
  intro c hc
  have hc' := List.mem_dedup.mp hc
  obtain ⟨v, _, rfl⟩ := List.mem_map.mp hc'
  apply length_le_one_of_all_eq (List.Nodup.filter _ hnd) v
  intro u hu
  rcases List.mem_filter.mp hu with ⟨_, hcond⟩
  have hmut := of_decide_eq_true hcond
  rcases reaches_rank_mono g rk hstrict v u hmut.1 with h1 | h1
  · exact h1
  · rcases reaches_rank_mono g rk hstrict u v hmut.2 with h2 | h2
    · exact h2.symm
    · omega

theorem arcsFromPorts_sound :
    ∀ (inputs : List (Option Nat)) (nl : Netlist) (t p0 : Nat) (a : Arc),
      a ∈ arcsFromPorts nl t p0 inputs →
        a.tgt = t ∧ ∃ j nid, inputs.get? j = some (some nid) ∧ a.tport = p0 + j ∧
          nl.netDriver nid = some a.src := by
  intro inputs
  induction inputs with
  | nil => intro nl t p0 a h; cases h
  | cons o rest ih =>
    intro nl t p0 a h
    cases o with
    | none =>
      obtain ⟨htgt, j, nid, hg, hp, hd⟩ := ih nl t (p0 + 1) a h
      exact ⟨htgt, j + 1, nid, hg, by omega, hd⟩
    | some nid0 =>
      simp only [arcsFromPorts, List.mem_append] at h
      rcases h with h | h
      · cases hd : nl.netDriver nid0 with
        | none => rw [hd] at h; cases h
        | some s =>
          rw [hd] at h
          have ha : a = ⟨s, t, p0⟩ := List.mem_singleton.mp h
          subst ha
          exact ⟨rfl, 0, nid0, rfl, by simp, hd⟩
      · obtain ⟨htgt, j, nid, hg, hp, hd⟩ := ih nl t (p0 + 1) a h
        exact ⟨htgt, j + 1, nid, hg, by omega, hd⟩

theorem arcsFromPorts_complete :
    ∀ (inputs : List (Option Nat)) (nl : Netlist) (t p0 j nid s : Nat),
      inputs.get? j = some (some nid) → nl.netDriver nid = some s →
      (⟨s, t, p0 + j⟩ : Arc) ∈ arcsFromPorts nl t p0 inputs := by
  intro inputs
  induction inputs with
  | nil => intro nl t p0 j nid s hg _; cases hg
  | cons o rest ih =>
    intro nl t p0 j nid s hg hd
    cases j with
    | zero =>
      have ho : o = some nid := by
        injection hg with hg
      subst ho
      simp only [arcsFromPorts, hd, List.mem_append]
      left
      simp
    | succ j' =>
      have hmem := ih nl t (p0 + 1) j' nid s hg hd
      have hport : p0 + (j' + 1) = p0 + 1 + j' := by omega
      cases o with
      | none =>
        simp only [arcsFromPorts]
        rw [hport]
        exact hmem
      | some nid0 =>
        simp only [arcsFromPorts, List.mem_append]
        right
        rw [hport]
        exact hmem

theorem arcsFromKeys_sound :
    ∀ (keys : List Nat) (nl : Netlist) (a : Arc), a ∈ arcsFromKeys nl keys →
      a.tgt ∈ keys ∧ ∃ nid, getPort nl a.tgt a.tport = some (some nid) ∧
        nl.netDriver nid = some a.src := by
  intro keys
  induction keys with
  | nil => intro nl a h; cases h
  | cons t rest ih =>
    intro nl a h
    simp only [arcsFromKeys, List.mem_append] at h
    rcases h with h | h
    · cases hl : nl.lookupInst t with
      | none => rw [hl] at h; cases h
      | some inst =>
        rw [hl] at h
        obtain ⟨htgt, j, nid, hg, hp, hd⟩ := arcsFromPorts_sound inst.inputs nl t 0 a h
        refine ⟨htgt ▸ List.mem_cons_self t rest, nid, ?_, hd⟩
        unfold getPort
        rw [htgt, hl]
        simp only [Option.some_bind]
        rw [hp]
        simpa using hg
    · obtain ⟨htgt, hrest⟩ := ih nl a h
      exact ⟨List.mem_cons_of_mem t htgt, hrest⟩

theorem arcsFromKeys_complete :
    ∀ (keys : List Nat) (nl : Netlist) (t : Nat), t ∈ keys → ∀ (p nid s : Nat),
      getPort nl t p = some (some nid) → nl.netDriver nid = some s →
      (⟨s, t, p⟩ : Arc) ∈ arcsFromKeys nl keys := by
  intro keys
  induction keys with
  | nil => intro nl t ht; cases ht
  | cons t0 rest ih =>
    intro nl t ht p nid s hg hd
    simp only [arcsFromKeys, List.mem_append]
    rcases List.mem_cons.mp ht with h | h
    · subst h
      unfold getPort at hg
      cases hl : nl.lookupInst t with
      | none => rw [hl] at hg; cases hg
      | some inst =>
        rw [hl] at hg
        simp only [Option.some_bind] at hg
        left
        have := arcsFromPorts_complete inst.inputs nl t 0 p nid s hg hd
        simpa using this
    · right
      exact ih nl t h p nid s hg hd

theorem get?_set_none :
    ∀ (l : List (Option Nat)) (p p' : Nat),
      (l.set p none).get? p' =
        if p' = p then (l.get? p').map (fun _ => none) else l.get? p' := by
  intro l
  induction l with
  | nil =>
    intro p p'
    by_cases hp : p' = p <;> simp [hp]
  | cons x rest ih =>
    intro p p'
    cases p with
    | zero =>
      cases p' with
      | zero => simp [List.set]
      | succ q => simp [List.set]
    | succ p1 =>
      cases p' with
      | zero => simp [List.set]
      | succ q =>
        simp only [List.set, List.get?]
        rw [ih p1 q]
        by_cases hq : q = p1
        · rw [if_pos hq, if_pos (by omega : q + 1 = p1 + 1)]
        · rw [if_neg hq, if_neg (by omega : ¬q + 1 = p1 + 1)]

theorem getPort_disconnectPort (nl : Netlist) (t p t' p' : Nat) :
    getPort (nl.disconnectPort t p) t' p' =
      if t' = t ∧ p' = p then (getPort nl t' p').map (fun _ => none)
      else getPort nl t' p' := by
  by_cases hc : t' = t ∧ p' = p
  · obtain ⟨ht, hp⟩ := hc
    subst ht; subst hp
    rw [if_pos ⟨rfl, rfl⟩]
    unfold getPort Netlist.disconnectPort Netlist.lookupInst
    simp only
    rw [alookup_updateFirst, if_pos rfl]
    cases alookup nl.insts t' with
    | none => rfl
    | some i =>
      simp only [Option.map_some', Option.some_bind]
      rw [get?_set_none, if_pos rfl]
  · rw [if_neg hc]
    unfold getPort Netlist.disconnectPort Netlist.lookupInst
    simp only
    rw [alookup_updateFirst]
    by_cases ht : t' = t
    · rw [if_pos ht]
      have hp : ¬p' = p := fun h => hc ⟨ht, h⟩
      subst ht
      cases alookup nl.insts t' with
      | none => rfl
      | some i =>
        simp only [Option.map_some', Option.some_bind]
        rw [get?_set_none, if_neg hp]
    · rw [if_neg ht]

theorem updateFirst_map_fst {α : Type} (f : α → α) (t : Nat) :
    ∀ l : List (Nat × α), (updateFirst f t l).map Prod.fst = l.map Prod.fst := by
  intro l
  induction l with
  | nil => rfl
  | cons q rest ih =>
    obtain ⟨k, x⟩ := q
    by_cases hk : k = t
    · simp [updateFirst, hk]
    · simp [updateFirst, hk, ih]

theorem disconnectArcsGo_nets :
    ∀ (fb : List Arc) (nl : Netlist), (disconnectArcsGo nl fb).nets = nl.nets := by
  intro fb
  induction fb with
  | nil => intro nl; rfl
  | cons a rest ih =>
    intro nl
    simp only [disconnectArcsGo]
    rw [ih]
    rfl

theorem disconnectArcsGo_instKeysList :
    ∀ (fb : List Arc) (nl : Netlist),
      (disconnectArcsGo nl fb).instKeysList = nl.instKeysList := by
  intro fb
  induction fb with
  | nil => intro nl; rfl
  | cons a rest ih =>
    intro nl
    simp only [disconnectArcsGo]
    rw [ih]
    unfold Netlist.instKeysList Netlist.disconnectPort
    simp only
    rw [updateFirst_map_fst]

theorem netDriver_disconnectArcsGo (fb : List Arc) (nl : Netlist) (nid : Nat) :
    (disconnectArcsGo nl fb).netDriver nid = nl.netDriver nid := by
  unfold Netlist.netDriver Netlist.lookupNet
  rw [disconnectArcsGo_nets]

theorem getPort_disconnectArcsGo_some :
    ∀ (fb : List Arc) (nl : Netlist) (t' p' nid : Nat),
      getPort (disconnectArcsGo nl fb) t' p' = some (some nid) →
        getPort nl t' p' = some (some nid) ∧ ∀ f ∈ fb, ¬(f.tgt = t' ∧ f.tport = p') := by
  intro fb
  induction fb with
  | nil =>
    intro nl t' p' nid h
    exact ⟨h, fun f hf => absurd hf (List.not_mem_nil f)⟩
  | cons a rest ih =>
    intro nl t' p' nid h
    simp only [disconnectArcsGo] at h
    obtain ⟨h1, h2⟩ := ih _ t' p' nid h
    rw [getPort_disconnectPort] at h1
    by_cases hc : t' = a.tgt ∧ p' = a.tport
    · rw [if_pos hc] at h1
      exfalso
      cases getPort nl t' p' <;> simp at h1
    · rw [if_neg hc] at h1
      refine ⟨h1, ?_⟩
      intro f hf
      rcases List.mem_cons.mp hf with h | h
      · subst h
        intro hcon
        exact hc ⟨hcon.1.symm, hcon.2.symm⟩
      · exact h2 f h

theorem inputDriver_disconnectPort_self (nl : Netlist) (t p : Nat) :
    (nl.disconnectPort t p).inputDriver t p = none := by
  rw [inputDriver_eq_getPort_bind, getPort_disconnectPort, if_pos ⟨rfl, rfl⟩]
  cases getPort nl t p <;> rfl

theorem inputDriver_disconnectPort_none (nl : Netlist) (t p t' p' : Nat)
    (h : nl.inputDriver t' p' = none) :
    (nl.disconnectPort t p).inputDriver t' p' = none := by
  rw [inputDriver_eq_getPort_bind, getPort_disconnectPort]
  by_cases hc : t' = t ∧ p' = p
  · rw [if_pos hc]
    cases getPort nl t' p' <;> rfl
  · rw [if_neg hc]
    rw [inputDriver_eq_getPort_bind] at h
    exact h

theorem inputDriver_disconnectArcsGo_none :
    ∀ (fb : List Arc) (nl : Netlist) (t' p' : Nat), nl.inputDriver t' p' = none →
      (disconnectArcsGo nl fb).inputDriver t' p' = none := by
  intro fb
  induction fb with
  | nil => intro nl t' p' h; exact h
  | cons a rest ih =>
    intro nl t' p' h
    simp only [disconnectArcsGo]
    exact ih _ t' p' (inputDriver_disconnectPort_none nl a.tgt a.tport t' p' h)

theorem inputDriver_disconnectArcsGo_targets :
    ∀ (fb : List Arc) (nl : Netlist), ∀ a ∈ fb,
      (disconnectArcsGo nl fb).inputDriver a.tgt a.tport = none := by
  intro fb
  induction fb with
  | nil => intro nl a ha; cases ha
  | cons f rest ih =>
    intro nl a ha
    simp only [disconnectArcsGo]
    rcases List.mem_cons.mp ha with h | h
    · subst h
      exact inputDriver_disconnectArcsGo_none rest _ a.tgt a.tport
        (inputDriver_disconnectPort_self nl a.tgt a.tport)
    · exact ih _ a h

theorem disconnected_arcs_strict (nl : Netlist) :
    ∀ a ∈ (disconnectArcsGo nl nl.toGraph.greedy_feedback_arcs).toGraph.arcs,
      nl.toGraph.rank a.src < nl.toGraph.rank a.tgt := by
  intro a ha
  have ha' : a ∈ arcsFromKeys (disconnectArcsGo nl nl.toGraph.greedy_feedback_arcs)
      (disconnectArcsGo nl nl.toGraph.greedy_feedback_arcs).instKeysList := ha
  obtain ⟨htgt, nid, hport, hdrv⟩ := arcsFromKeys_sound _ _ a ha'
  have hkeys := disconnectArcsGo_instKeysList nl.toGraph.greedy_feedback_arcs nl
  obtain ⟨hport0, hnotfb⟩ := getPort_disconnectArcsGo_some _ nl a.tgt a.tport nid hport
  have hdrv0 : nl.netDriver nid = some a.src := by
    rw [← netDriver_disconnectArcsGo nl.toGraph.greedy_feedback_arcs nl nid]
    exact hdrv
  have htgt0 : a.tgt ∈ nl.instKeysList := hkeys ▸ htgt
  have hmem : (⟨a.src, a.tgt, a.tport⟩ : Arc) ∈ arcsFromKeys nl nl.instKeysList :=
    arcsFromKeys_complete _ nl a.tgt htgt0 a.tport nid a.src hport0 hdrv0
  have hmem' : a ∈ nl.toGraph.arcs := hmem
  by_contra hnlt
  have hle : nl.toGraph.rank a.tgt ≤ nl.toGraph.rank a.src := by omega
  have hfb : a ∈ nl.toGraph.greedy_feedback_arcs :=
    List.mem_filter.mpr ⟨hmem', decide_eq_true hle⟩
  exact hnotfb a hfb ⟨rfl, rfl⟩

/-- C3: for any netlist, the `disconnect-arc-set` pass disconnects the
target input port of every arc reported by `greedy_feedback_arcs()`, after
which the connectivity graph has no strongly connected component of size
greater than 1, and it reports `Disconnected N arcs` where `N` is the
number of arcs in the reported feedback arc set. -/
theorem disconnectArcSet_acyclic (nl : Netlist) :
    DisconnectArcSet.run nl =
      .ok ("Disconnected " ++ Nat.repr nl.toGraph.greedy_feedback_arcs.length ++ " arcs",
        disconnectArcsGo nl nl.toGraph.greedy_feedback_arcs) ∧
    (∀ a ∈ nl.toGraph.greedy_feedback_arcs,
      (disconnectArcsGo nl nl.toGraph.greedy_feedback_arcs).inputDriver a.tgt a.tport = none) ∧
    (∀ c ∈ (disconnectArcsGo nl nl.toGraph.greedy_feedback_arcs).toGraph.sccs,
      c.length ≤ 1) := by
  refine ⟨rfl, inputDriver_disconnectArcsGo_targets _ nl, ?_⟩
  apply sccs_trivial_of_rank_strict _ nl.toGraph.rank (disconnected_arcs_strict nl)
  exact List.nodup_dedup _

theorem disconnectArcSet_acyclic_witness :
    ((⟨2, 0, 0⟩ : Arc) ∈ nlC.toGraph.greedy_feedback_arcs ∧
      (disconnectArcsGo nlC nlC.toGraph.greedy_feedback_arcs).inputDriver 0 0 = none) ∧
    ([0] ∈ (disconnectArcsGo nlC nlC.toGraph.greedy_feedback_arcs).toGraph.sccs ∧
      ([0] : List Nat).length ≤ 1) :=
  ⟨⟨by decide, (disconnectArcSet_acyclic nlC).2.1 ⟨2, 0, 0⟩ (by decide)⟩,
    ⟨by decide, (disconnectArcSet_acyclic nlC).2.2 [0] (by decide)⟩⟩

theorem closeLive_fix (nl : Netlist) :
    ∀ (m : Nat) (S : Finset Nat × Finset Nat) (h1 : S.1 ⊆ nl.instKeys)
      (h2 : S.2 ⊆ nl.netKeys), liveGas nl S = m →
      (liveStep nl (closeLive nl S h1 h2)).1 ⊆ (closeLive nl S h1 h2).1 ∧
      (liveStep nl (closeLive nl S h1 h2)).2 ⊆ (closeLive nl S h1 h2).2 := by
  intro m
  induction m using Nat.strong_induction_on with
  | _ m ih =>
    intro S h1 h2 hm
    rw [closeLive]
    split
    next hs => exact hs
    next hs =>
      exact ih (liveGas nl (liveStep nl S)) (hm ▸ liveStep_gas_lt nl S h1 h2 hs)
        (liveStep nl S) _ _ rfl

theorem closeLive_invariant (nl : Netlist) (P : Finset Nat × Finset Nat → Prop)
    (hstep : ∀ S, P S → P (liveStep nl S)) :
    ∀ (m : Nat) (S : Finset Nat × Finset Nat) (h1 : S.1 ⊆ nl.instKeys)
      (h2 : S.2 ⊆ nl.netKeys), liveGas nl S = m → P S →
      P (closeLive nl S h1 h2) := by
  intro m
  induction m using Nat.strong_induction_on with
  | _ m ih =>
    intro S h1 h2 hm hP
    rw [closeLive]
    split
    next => exact hP
    next hs =>
      exact ih (liveGas nl (liveStep nl S)) (hm ▸ liveStep_gas_lt nl S h1 h2 hs)
        (liveStep nl S) _ _ rfl (hstep S hP)

theorem mem_instKeys_iff (nl : Netlist) (k : Nat) :
    k ∈ nl.instKeys ↔ ∃ i, (k, i) ∈ nl.insts := by
  unfold Netlist.instKeys
  rw [List.mem_toFinset, List.mem_map]
  constructor
  · rintro ⟨⟨k', i⟩, hmem, rfl⟩
    exact ⟨i, hmem⟩
  · rintro ⟨i, hmem⟩
    exact ⟨(k, i), hmem, rfl⟩

theorem mem_netKeys_iff (nl : Netlist) (nid : Nat) :
    nid ∈ nl.netKeys ↔ ∃ net, (nid, net) ∈ nl.nets := by
  unfold Netlist.netKeys
  rw [List.mem_toFinset, List.mem_map]
  constructor
  · rintro ⟨⟨k', net⟩, hmem, rfl⟩
    exact ⟨net, hmem⟩
  · rintro ⟨net, hmem⟩
    exact ⟨(nid, net), hmem, rfl⟩

theorem closeLive_sound (nl : Netlist) :
    (∀ k ∈ nl.cleanLiveSets.1, Live nl (.inl k)) ∧
    (∀ nid ∈ nl.cleanLiveSets.2, Live nl (.inr nid)) := by
  have hstep : ∀ S, ((∀ k ∈ S.1, Live nl (.inl k)) ∧ (∀ nid ∈ S.2, Live nl (.inr nid))) →
      ((∀ k ∈ (liveStep nl S).1, Live nl (.inl k)) ∧
        (∀ nid ∈ (liveStep nl S).2, Live nl (.inr nid))) := by
    intro S hS
    constructor
    · intro k hk
      rcases Finset.mem_union.mp hk with h | h
      · exact hS.1 k h
      · obtain ⟨hkk, q, hq, hq1, hdrv⟩ := Finset.mem_filter.mp h
        exact Live.driver q.1 k q.2 (hS.2 q.1 hq1) hq hdrv hkk
    · intro nid hn
      rcases Finset.mem_union.mp hn with h | h
      · exact hS.2 nid h
      · obtain ⟨hnk, hcond⟩ := Finset.mem_filter.mp h
        rcases hcond with ho | ⟨p, hp, hp1, hpin⟩
        · exact Live.out nid hnk ho
        · exact Live.input p.1 nid p.2 (hS.1 p.1 hp1) hp hpin hnk
  exact closeLive_invariant nl _ hstep (liveGas nl (∅, ∅)) (∅, ∅)
    (Finset.empty_subset _) (Finset.empty_subset _) rfl
    ⟨fun k hk => absurd hk (Finset.not_mem_empty k),
      fun nid hn => absurd hn (Finset.not_mem_empty nid)⟩

theorem live_mem_cleanLiveSets (nl : Netlist) :
    ∀ x, Live nl x →
      (match x with
       | .inl k => k ∈ nl.cleanLiveSets.1
       | .inr nid => nid ∈ nl.cleanLiveSets.2) := by
  have hfix : (liveStep nl nl.cleanLiveSets).1 ⊆ nl.cleanLiveSets.1 ∧
      (liveStep nl nl.cleanLiveSets).2 ⊆ nl.cleanLiveSets.2 :=
    closeLive_fix nl (liveGas nl (∅, ∅)) (∅, ∅)
      (Finset.empty_subset _) (Finset.empty_subset _) rfl
  intro x h
  induction h with
  | out nid hk ho =>
    apply hfix.2
    apply Finset.mem_union_right
    exact Finset.mem_filter.mpr ⟨hk, Or.inl ho⟩
  | driver nid k net hlive hmem hdrv hkk ih =>
    apply hfix.1
    apply Finset.mem_union_right
    exact Finset.mem_filter.mpr ⟨hkk, ⟨(nid, net), hmem, ih, hdrv⟩⟩
  | input k nid inst hlive hmem hin hk ih =>
    apply hfix.2
    apply Finset.mem_union_right
    exact Finset.mem_filter.mpr ⟨hk, Or.inr ⟨(k, inst), hmem, ih, hin⟩⟩

theorem live_transfer (nl : Netlist) :
    ∀ x, Live nl x → Live (nl.clean).2 x := by
  intro x h
  induction h with
  | out nid hk ho =>
    apply Live.out nid
    · rw [mem_netKeys_iff]
      obtain ⟨net, hnet⟩ := (mem_netKeys_iff nl nid).mp hk
      refine ⟨net, List.mem_filter.mpr ⟨hnet, decide_eq_true ?_⟩⟩
      exact live_mem_cleanLiveSets nl (.inr nid) (Live.out nid hk ho)
    · exact ho
  | driver nid k net hlive hmem hdrv hkk ih =>
    apply Live.driver nid k net ih
    · exact List.mem_filter.mpr
        ⟨hmem, decide_eq_true (live_mem_cleanLiveSets nl (.inr nid) hlive)⟩
    · exact hdrv
    · rw [mem_instKeys_iff]
      obtain ⟨inst, hinst⟩ := (mem_instKeys_iff nl k).mp hkk
      refine ⟨inst, List.mem_filter.mpr ⟨hinst, decide_eq_true ?_⟩⟩
      exact live_mem_cleanLiveSets nl (.inl k) (Live.driver nid k net hlive hmem hdrv hkk)
  | input k nid inst hlive hmem hin hk ih =>
    apply Live.input k nid inst ih
    · exact List.mem_filter.mpr
        ⟨hmem, decide_eq_true (live_mem_cleanLiveSets nl (.inl k) hlive)⟩
    · exact hin
    · rw [mem_netKeys_iff]
      obtain ⟨net, hnet⟩ := (mem_netKeys_iff nl nid).mp hk
      refine ⟨net, List.mem_filter.mpr ⟨hnet, decide_eq_true ?_⟩⟩
      exact live_mem_cleanLiveSets nl (.inr nid) (Live.input k nid inst hlive hmem hin hk)

theorem clean_keeps_all_live (nl : Netlist) :
    (∀ p ∈ (nl.clean).2.insts, p.1 ∈ (nl.clean).2.cleanLiveSets.1) ∧
    (∀ q ∈ (nl.clean).2.nets, q.1 ∈ (nl.clean).2.cleanLiveSets.2) := by
  constructor
  · intro p hp
    obtain ⟨hmem, hdec⟩ := List.mem_filter.mp hp
    have hk : p.1 ∈ nl.cleanLiveSets.1 := of_decide_eq_true hdec
    have hlive : Live nl (.inl p.1) := (closeLive_sound nl).1 p.1 hk
    exact live_mem_cleanLiveSets (nl.clean).2 (.inl p.1) (live_transfer nl _ hlive)
  · intro q hq
    obtain ⟨hmem, hdec⟩ := List.mem_filter.mp hq
    have hk : q.1 ∈ nl.cleanLiveSets.2 := of_decide_eq_true hdec
    have hlive : Live nl (.inr q.1) := (closeLive_sound nl).2 q.1 hk
    exact live_mem_cleanLiveSets (nl.clean).2 (.inr q.1) (live_transfer nl _ hlive)

theorem clean_of_all_live (m : Netlist)
    (h1 : ∀ p ∈ m.insts, p.1 ∈ m.cleanLiveSets.1)
    (h2 : ∀ q ∈ m.nets, q.1 ∈ m.cleanLiveSets.2) :
    m.clean = (([], []), m) := by
  unfold Netlist.clean
  rw [List.filter_eq_nil_iff.mpr (fun p hp => by
        simp only [decide_eq_true_eq]
        exact fun hcon => hcon (h1 p hp)),
      List.filter_eq_nil_iff.mpr (fun q hq => by
        simp only [decide_eq_true_eq]
        exact fun hcon => hcon (h2 q hq)),
      List.filter_eq_self.mpr (fun p hp => decide_eq_true (h1 p hp)),
      List.filter_eq_self.mpr (fun q hq => decide_eq_true (h2 q hq))]

/-- C6: for any netlist, the `clean` pass reports
`Cleaned N objects. M remain.` where `N` is the number of objects removed
by `clean()` and `M` is the netlist's live-object count afterward; running
clean twice in succession removes zero additional objects on the second
run, so the second report is `Cleaned 0 objects. M remain.`. -/
theorem clean_report_and_idempotent (nl : Netlist) :
    Clean.run nl =
      .ok ("Cleaned " ++ Nat.repr ((nl.clean).1.1.length + (nl.clean).1.2.length) ++
        " objects. " ++ Nat.repr (nl.clean).2.len ++ " remain.", (nl.clean).2) ∧
    ((nl.clean).2.clean).1.1.length + ((nl.clean).2.clean).1.2.length = 0 ∧
    Clean.run (nl.clean).2 =
      .ok ("Cleaned " ++ Nat.repr 0 ++ " objects. " ++ Nat.repr (nl.clean).2.len ++
        " remain.", (nl.clean).2) := by
  have hall := clean_of_all_live (nl.clean).2 (clean_keeps_all_live nl).1
    (clean_keeps_all_live nl).2
  refine ⟨rfl, ?_, ?_⟩
  · rw [hall]
    rfl
  · unfold Clean.run
    rw [hall]
    rfl

end NlOpt
